import Mathlib

/-!
# Verification of the kmap_core Boolean minimizer

Shallow embedding of `src/kmap_core.c` (data model, grouping engine,
redundancy reducer, validator, expression renderer) together with proofs
of the specification claims.

Machine integers are modelled as `Nat` with explicit bit operations; the
C idiom `a & ~b` on a 64-bit word is rendered as `Nat.ldiff a b` (all
operands involved stay below `2^64` on the inputs considered).
-/

namespace Kmap

/-- Structural worker for `popcount`: the fuel argument dominates the
value, so the recursion is structural and reduces in the kernel. -/
def popcountGo : Nat → Nat → Nat
  | 0, _ => 0
  | fuel + 1, y => if y = 0 then 0 else y % 2 + popcountGo fuel (y / 2)

/-- Population count, `popcount` from kmap_core.h (`__builtin_popcountll`). -/
def popcount (x : Nat) : Nat := popcountGo x x

/-- Structural worker for `ctz`. -/
def ctzGo : Nat → Nat → Nat
  | 0, _ => 0
  | fuel + 1, y =>
    if y = 0 then 0
    else if y % 2 = 1 then 0
    else 1 + ctzGo fuel (y / 2)

/-- Count trailing zeros, `ctz` from kmap_core.h (`__builtin_ctzll`).
The C builtin is undefined at 0; the code never calls it with 0. -/
def ctz (x : Nat) : Nat := ctzGo x x

/-- Structural worker for the 64-bit `a & ~b`. -/
def ldiff64Go : Nat → Nat → Nat → Nat
  | 0, _, _ => 0
  | fuel + 1, a, b =>
    (if a % 2 = 1 ∧ b % 2 = 0 then 1 else 0) + 2 * ldiff64Go fuel (a / 2) (b / 2)

/-- The C idiom `a & ~b` on `uint64_t` operands: bitwise AND-NOT over
the 64 bits of the word.  Agrees with `Nat.ldiff` whenever `a < 2^64`,
which holds for every value a C `uint64_t` can take. -/
def ldiff64 (a b : Nat) : Nat := ldiff64Go 64 a b

/-- `truth_table_t` from kmap_core.h. -/
structure truth_table_t where
  minterms : Nat
  dont_cares : Nat
  num_vars : Nat
  minterm_count : Nat
deriving Repr, DecidableEq

/-- `implicant_t` from kmap_core.h. -/
structure implicant_t where
  covered_minterms : Nat
  literal_mask : Nat
  literal_values : Nat
  size : Nat
deriving Repr, DecidableEq, Inhabited

/-- `solution_t` from kmap_core.h: the implicant array together with the
aggregate counters.  The array is modelled as a list in emission order. -/
structure solution_t where
  implicants : List implicant_t
  literal_count : Nat
  term_count : Nat
deriving Repr, DecidableEq

/-- `are_adjacent` from kmap_core.c: both cells in range and the indices
differ in exactly one bit. -/
def are_adjacent (cell1 cell2 num_vars : Nat) : Bool :=
  if cell1 ≥ 1 <<< num_vars || cell2 ≥ 1 <<< num_vars then false
  else popcount (cell1 ^^^ cell2) == 1

/-- `validate_truth_table` from kmap_core.c.

The C source computes `max_mask = (1ULL << (1 << num_vars)) - 1`.  For
`num_vars = 6` the shift count is 64, which is undefined behaviour in C;
on x86-64 and AArch64 the machine instruction masks the count to
`64 % 64 = 0`, so `max_mask` evaluates to 0.  The model reflects that
compiled behaviour by reducing the shift count mod 64. -/
def validate_truth_table (tt : truth_table_t) : Bool :=
  if tt.num_vars < 2 || tt.num_vars > 6 then false
  else
    let max_mask : Nat := (1 <<< ((1 <<< tt.num_vars) % 64)) - 1
    if tt.minterms &&& tt.dont_cares ≠ 0 then false
    else if ldiff64 (tt.minterms ||| tt.dont_cares) max_mask ≠ 0 then false
    else if tt.minterm_count ≠ popcount tt.minterms then false
    else true

/-- `validate_solution` from kmap_core.c: the union of the implicants'
covered minterms must equal the truth table's minterms exactly. -/
def validate_solution (tt : truth_table_t) (solution : solution_t) : Bool :=
  if ¬ validate_truth_table tt then false
  else (solution.implicants.foldl (fun c i => c ||| i.covered_minterms) 0) == tt.minterms

/-- Mutable state of `find_groups_with_dont_cares`: the minterms still to
be covered, the cells still available for grouping, and the implicants
emitted so far (`groups` array plus `group_count`). -/
structure GroupState where
  remaining : Nat
  available : Nat
  groups : List implicant_t
deriving Repr, DecidableEq

/-- `MAX_GROUPS` from kmap_core.h. -/
def MAX_GROUPS : Nat := 32

/-- The inner `cell2` scan of the first (pair) pass: starting from
`cell1 + 1`, the first cell that is available, adjacent to `cell1`, and
whose pair with `cell1` covers at least one required minterm.  (The C
code keeps scanning when the tentative pair covers no minterm.) -/
def findPartner (minterms num_vars avail cell1 : Nat) : Option Nat :=
  (List.range' (cell1 + 1) ((1 <<< num_vars) - (cell1 + 1))).find? fun cell2 =>
    avail.testBit cell2 && are_adjacent cell1 cell2 num_vars &&
      (((1 <<< cell1) ||| (1 <<< cell2)) &&& minterms != 0)

/-- One iteration of the pair pass of `find_groups_with_dont_cares` for a
given `cell1`.  The C `for` loop's `*group_count < MAX_GROUPS` condition
exits the loop; since the count never decreases, exiting is equivalent to
skipping every later cell, which is how the guard is modelled here. -/
def pass1Step (minterms num_vars : Nat) (s : GroupState) (cell1 : Nat) : GroupState :=
  if MAX_GROUPS ≤ s.groups.length then s
  else if s.available.testBit cell1 && s.remaining.testBit cell1 then
    match findPartner minterms num_vars s.available cell1 with
    | some cell2 =>
        let diff := cell1 ^^^ cell2
        let group_mask := (1 <<< cell1) ||| (1 <<< cell2)
        let covered := group_mask &&& minterms
        let mask := ldiff64 ((1 <<< num_vars) - 1) diff
        let imp : implicant_t :=
          ⟨covered, mask, cell1 &&& mask, popcount covered⟩
        { remaining := ldiff64 s.remaining covered
          available := ldiff64 s.available group_mask
          groups := s.groups ++ [imp] }
    | none => s
  else s

/-- The pair pass: scan `cell1` over the whole domain. -/
def pass1 (minterms num_vars : Nat) (s : GroupState) : GroupState :=
  (List.range (1 <<< num_vars)).foldl (pass1Step minterms num_vars) s

/-- `is_valid_4cell_group` from kmap_core.c. -/
def is_valid_4cell_group (c1 c2 c3 c4 _num_vars : Nat) : Bool :=
  let diff1 := c1 ^^^ c2
  let diff2 := c1 ^^^ c3
  let diff3 := c1 ^^^ c4
  diff1 ≠ 0 && diff2 ≠ 0 && diff3 ≠ 0 &&
    ((diff1 &&& diff2) == 0 || (diff1 &&& diff3) == 0 || (diff2 &&& diff3) == 0)

/-- The nested `cell2`/`cell3`/`cell4` scan of the 4-cell (quad) pass:
the first triple, in lexicographic scan order, passing all the C code's
filters.  The `goto next_cell1` on success makes the C loops exactly a
first-match search. -/
def findQuad (minterms num_vars avail cell1 : Nat) : Option (Nat × Nat × Nat) :=
  let total := 1 <<< num_vars
  (List.range' (cell1 + 1) (total - (cell1 + 1))).findSome? fun cell2 =>
    if are_adjacent cell1 cell2 num_vars && avail.testBit cell2 then
      (List.range' (cell2 + 1) (total - (cell2 + 1))).findSome? fun cell3 =>
        if (are_adjacent cell1 cell3 num_vars || are_adjacent cell2 cell3 num_vars)
            && avail.testBit cell3 then
          ((List.range' (cell3 + 1) (total - (cell3 + 1))).find? fun cell4 =>
            avail.testBit cell4 &&
              popcount (cell1 ^^^ cell2 ^^^ cell3 ^^^ cell4) == 2 &&
              is_valid_4cell_group cell1 cell2 cell3 cell4 num_vars &&
              ((((1 <<< cell1) ||| (1 <<< cell2)) ||| ((1 <<< cell3) ||| (1 <<< cell4)))
                  &&& minterms != 0)).map fun cell4 => (cell2, cell3, cell4)
        else none
    else none

/-- One iteration of the quad pass for a given `cell1`.  The C loop
condition also tests `*group_count < MAX_GROUPS && remaining_minterms`;
both are monotone (the count never shrinks, `remaining` never grows), so
testing them per cell is equivalent to exiting the loop. -/
def pass2Step (minterms num_vars : Nat) (s : GroupState) (cell1 : Nat) : GroupState :=
  if MAX_GROUPS ≤ s.groups.length || s.remaining == 0 then s
  else if s.remaining.testBit cell1 then
    match findQuad minterms num_vars s.available cell1 with
    | some (cell2, cell3, cell4) =>
        let diff_bits := cell1 ^^^ cell2 ^^^ cell3 ^^^ cell4
        let group_mask := ((1 <<< cell1) ||| (1 <<< cell2)) ||| ((1 <<< cell3) ||| (1 <<< cell4))
        let covered := group_mask &&& minterms
        let mask := ldiff64 ((1 <<< num_vars) - 1) diff_bits
        let imp : implicant_t :=
          ⟨covered, mask, cell1 &&& mask, popcount covered⟩
        { remaining := ldiff64 s.remaining covered
          available := ldiff64 s.available group_mask
          groups := s.groups ++ [imp] }
    | none => s
  else s

/-- The quad pass. -/
def pass2 (minterms num_vars : Nat) (s : GroupState) : GroupState :=
  (List.range (1 <<< num_vars)).foldl (pass2Step minterms num_vars) s

/-- One iteration of the final (singleton) pass: any still-remaining
required minterm becomes a single-cell implicant.  The C code does not
clear the `remaining` bit. -/
def pass3Step (num_vars : Nat) (s : GroupState) (cell : Nat) : GroupState :=
  if MAX_GROUPS ≤ s.groups.length then s
  else if s.remaining.testBit cell then
    { s with groups := s.groups ++
        [⟨1 <<< cell, (1 <<< num_vars) - 1, cell, 1⟩] }
  else s

/-- The singleton pass. -/
def pass3 (num_vars : Nat) (s : GroupState) : GroupState :=
  (List.range (1 <<< num_vars)).foldl (pass3Step num_vars) s

/-- `find_groups_with_dont_cares` from kmap_core.c: the three ordered
greedy passes, returning the emitted implicants in order. -/
def find_groups_with_dont_cares (minterms dont_cares num_vars : Nat) : List implicant_t :=
  (pass3 num_vars (pass2 minterms num_vars (pass1 minterms num_vars
    ⟨minterms, minterms ||| dont_cares, []⟩))).groups

/-- The inner `j` scan of `remove_redundant_implicants` for implicant `i`:
some other implicant `j`, not already removed, covers all of `i`'s
minterms and is strictly larger.  The C loop breaks at the first such
`j`, which is observationally `List.any`. -/
def hasCoveringLarger (l : List implicant_t) (i : Nat) : Bool :=
  (List.range l.length).any fun j =>
    i != j && (l.getD j default).size != 0 &&
      ((l.getD i default).covered_minterms &&& (l.getD j default).covered_minterms
          == (l.getD i default).covered_minterms) &&
      (l.getD j default).size > (l.getD i default).size

/-- One iteration of the marking sweep of `remove_redundant_implicants`:
if implicant `i` is not already removed and some other non-removed
implicant covers it and is larger, set its `size` to 0. -/
def sweepStep (l : List implicant_t) (i : Nat) : List implicant_t :=
  if (l.getD i default).size = 0 then l
  else if hasCoveringLarger l i then
    l.set i { l.getD i default with size := 0 }
  else l

/-- The full marking sweep of `remove_redundant_implicants`. -/
def sweep (l : List implicant_t) : List implicant_t :=
  (List.range l.length).foldl sweepStep l

/-- `remove_redundant_implicants` from kmap_core.c: marking sweep
followed by stable compaction of the entries with nonzero `size`. -/
def remove_redundant_implicants (l : List implicant_t) : List implicant_t :=
  (sweep l).filter fun imp => imp.size != 0

/-- `find_prime_implicants` from kmap_core.c.  The null-pointer check
(-1) has no counterpart in the embedding; a validation failure yields
error code -2.  The single-minterm shortcut leaves the `memset`-zeroed
aggregate counters at 0, exactly as the C code does. -/
def find_prime_implicants (tt : truth_table_t) : Except Int solution_t :=
  if ¬ validate_truth_table tt then .error (-2)
  else if tt.minterm_count = 0 then .ok ⟨[], 0, 0⟩
  else if tt.minterm_count = 1 then
    let pos := ctz tt.minterms
    .ok ⟨[⟨1 <<< pos, (1 <<< tt.num_vars) - 1, pos, 1⟩], 0, 0⟩
  else
    let implicants :=
      remove_redundant_implicants
        (find_groups_with_dont_cares tt.minterms tt.dont_cares tt.num_vars)
    .ok ⟨implicants,
         implicants.foldl (fun c i => c + popcount i.literal_mask) 0,
         implicants.length⟩

/-- The variable-name table `"ABCDEFGH"` of `generate_sop_expression`. -/
def var_names : List Char := ['A', 'B', 'C', 'D', 'E', 'F', 'G', 'H']

/-- `strncpy(output, src, output_len - 1); output[output_len - 1] = 0`
for a single-character `src`, as used for the "0" and "1" special cases:
with a 1-byte buffer nothing of `src` is copied. -/
def strncpyOne (c : Char) (output_len : Nat) : String :=
  if output_len ≥ 2 then String.mk [c] else ""

/-- The guarded-append pattern `if (strlen(output) + need >= output_size)
return KMAP_ERROR_BUFFER_TOO_SMALL; strcat(output, tok);` that
`generate_sop_expression` repeats for every token: fail with -3 leaving
the buffer untouched, or append the token. -/
def appendTok (output_len : Nat) (out tok : String) (need : Nat) : Int × String :=
  if out.length + need ≥ output_len then (-3, out) else (0, out ++ tok)

/-- The literal loop of `generate_sop_expression` for one implicant:
`var` runs over the list `List.range num_vars`, appending `&`, `~` and
the variable letter with the C code's buffer checks (the guard uses
`strlen + 1` for `&` and `strlen + 2` for `~` and the letter).  Returns
the error code, the buffer, and the `first_literal` flag. -/
def renderVars (imp : implicant_t) (output_len : Nat) :
    List Nat → String → Bool → Int × String × Bool
  | [], out, first => (0, out, first)
  | var :: rest, out, first =>
    if imp.literal_mask.testBit var then
      -- AND operator between literals
      let step1 : Int × String :=
        if ¬ first then appendTok output_len out "&" 1 else (0, out)
      if step1.1 ≠ 0 then (step1.1, step1.2, first)
      else
        -- complement marker
        let step2 : Int × String :=
          if ¬ imp.literal_values.testBit var then appendTok output_len step1.2 "~" 2
          else (0, step1.2)
        if step2.1 ≠ 0 then (step2.1, step2.2, first)
        else
          -- variable name
          let step3 : Int × String :=
            appendTok output_len step2.2 (String.mk [var_names.getD var 'A']) 2
          if step3.1 ≠ 0 then (step3.1, step3.2, first)
          else renderVars imp output_len rest step3.2 false
    else renderVars imp output_len rest out first

/-- The term loop of `generate_sop_expression`: ` + ` separators between
terms, the per-term literal loop, and the `1` fallback for a term with
no literals. -/
def renderTerms (num_vars output_len : Nat) :
    List implicant_t → Bool → String → Int × String
  | [], _, out => (0, out)
  | imp :: rest, isFirst, out =>
    let step1 : Int × String :=
      if ¬ isFirst then appendTok output_len out " + " 3 else (0, out)
    if step1.1 ≠ 0 then step1
    else
      let r := renderVars imp output_len (List.range num_vars) step1.2 true
      if r.1 ≠ 0 then (r.1, r.2.1)
      else
        -- all variables eliminated: constant 1 term
        let step3 : Int × String :=
          if r.2.2 then appendTok output_len r.2.1 "1" 2 else (0, r.2.1)
        if step3.1 ≠ 0 then step3
        else renderTerms num_vars output_len rest false step3.2

/-- `generate_sop_expression` from kmap_core.c.  The result is the C
return code paired with the content of the output buffer when the
function returns (the C function writes into a caller-provided buffer
and leaves whatever it has written so far there when it fails with -3;
for the -1 and -2 early returns the buffer is untouched, modelled as
the empty string). -/
def generate_sop_expression (solution : solution_t) (num_vars output_len : Nat) :
    Int × String :=
  if output_len = 0 then (-1, "")
  else if num_vars > 8 then (-2, "")
  else if solution.implicants.length = 0 then (0, strncpyOne '0' output_len)
  else
    let r := renderTerms num_vars output_len solution.implicants true ""
    if r.1 ≠ 0 then r
    else if r.2.length = 0 then (0, strncpyOne '1' output_len)
    else r

/-! ## Counting machinery for the capacity bound

Every implicant the greedy engine emits is charged to the "domino"
`{2k, 2k+1}` of its starting cell; at most one emission per domino can
ever happen, which bounds the total number of emissions by half the
domain size and shows the `MAX_GROUPS` guard never drops a minterm. -/

/-- Number of set bits of `r` among positions `0, …, n-1`. -/
def countBits (r n : Nat) : Nat :=
  ((List.range n).filter (fun i => r.testBit i)).length

/-- Number of dominoes `{2k, 2k+1}`, `k < half`, holding a set bit of `r`. -/
def dominoCount (r half : Nat) : Nat :=
  ((List.range half).filter (fun k => r.testBit (2 * k) || r.testBit (2 * k + 1))).length

/-- A bit-subset relation: every set bit of `r'` is set in `r`. -/
def BitSub (r' r : Nat) : Prop := ∀ i, r'.testBit i = true → r.testBit i = true

/-! ## The union of covered minterms of an implicant list -/

/-- Union of the `covered_minterms` fields, as computed by
`validate_solution` and by the coverage arguments. -/
def unionCovered (l : List implicant_t) : Nat :=
  l.foldl (fun c i => c ||| i.covered_minterms) 0

/-! ## Well-formedness of emitted implicants -/

/-- Shape facts about every implicant the engine emits: the product term
is faithful on every covered cell, the literal mask misses at most one
variable, `size` is the popcount of the coverage, and at least one
required minterm is covered. -/
def WFimp (num_vars minterms : Nat) (g : implicant_t) : Prop :=
  (∀ i, g.covered_minterms.testBit i = true → i &&& g.literal_mask = g.literal_values) ∧
  num_vars - 1 ≤ popcount g.literal_mask ∧
  g.size = popcount g.covered_minterms ∧
  g.covered_minterms ≠ 0 ∧
  BitSub g.covered_minterms minterms

/-- Loop invariant of the pair pass after the cells `0, …, k-1` have been
processed:
* remaining minterms are required minterms and still available;
* a processed cell that is still remaining has no available higher
  adjacent cell (it scanned for one and failed);
* the emission count plus the number of dominoes still holding a
  remaining minterm never exceeds `MAX_GROUPS`;
* the emitted implicants cover exactly the required minterms retired
  from `remaining`;
* every emitted implicant is well-formed. -/
def Inv1 (minterms num_vars k : Nat) (s : GroupState) : Prop :=
  BitSub s.remaining minterms ∧
  BitSub s.remaining s.available ∧
  s.available < 2 ^ (2 ^ num_vars) ∧
  (∀ m, m < k → s.remaining.testBit m = true →
    ∀ j, m < j → are_adjacent m j num_vars = true → s.available.testBit j = false) ∧
  s.groups.length + dominoCount s.remaining (2 ^ (num_vars - 1)) ≤ MAX_GROUPS ∧
  unionCovered s.groups ||| s.remaining = minterms ∧
  unionCovered s.groups &&& s.remaining = 0 ∧
  (∀ g ∈ s.groups, WFimp num_vars minterms g)

/-- A single-cell implicant as emitted by the final pass. -/
def singleImp (num_vars c : Nat) : implicant_t :=
  ⟨1 <<< c, (1 <<< num_vars) - 1, c, 1⟩

/-- Value-level redundancy test: some implicant of `l` covers all of
`a`'s minterms and is strictly larger (the original data, before any
marking). -/
def subsumedByLarger (l : List implicant_t) (a : implicant_t) : Bool :=
  l.any fun b =>
    (a.covered_minterms &&& b.covered_minterms == a.covered_minterms) &&
      decide (a.size < b.size)

/-- Index-level redundancy over the original list. -/
def origRedundant (l : List implicant_t) (i : Nat) : Prop :=
  ∃ j, j < l.length ∧ j ≠ i ∧
    ((l.getD i default).covered_minterms &&& (l.getD j default).covered_minterms
      = (l.getD i default).covered_minterms) ∧
    (l.getD i default).size < (l.getD j default).size

/-- The §3 invariants of the specification's data model: 2-6 variables,
minterms and don't-cares disjoint, both inside the `2^numVars`-cell
domain, and the declared minterm count equal to `popcount(minterms)`. -/
def section3_invariants (tt : truth_table_t) : Bool :=
  decide (2 ≤ tt.num_vars) && decide (tt.num_vars ≤ 6) &&
  (tt.minterms &&& tt.dont_cares == 0) &&
  decide (tt.minterms ||| tt.dont_cares < 2 ^ (2 ^ tt.num_vars)) &&
  (tt.minterm_count == popcount tt.minterms)

/-- Partner search as the specification words it: the first
higher-indexed cell of the usable pool adjacent to `cell1`, with no
further condition. -/
def specFindPartner (num_vars avail cell1 : Nat) : Option Nat :=
  (List.range' (cell1 + 1) ((1 <<< num_vars) - (cell1 + 1))).find? fun cell2 =>
    avail.testBit cell2 && are_adjacent cell1 cell2 num_vars

/-- One pair-pass iteration as the specification words it: process each
cell that is usable and a still-uncovered required minterm, pair it with
the first adjacent partner, emit `coveredMinterms = pair ∩ minterms`,
`literalMask` = all variable bits except the differing bit,
`literalValues` = the fixed bits from `cellA`, and retire both cells
from the pool — with no capacity guard and no emptiness test on the
pair's covered minterms. -/
def specPairStep (minterms num_vars : Nat) (s : GroupState) (cell1 : Nat) : GroupState :=
  if s.available.testBit cell1 && s.remaining.testBit cell1 then
    match specFindPartner num_vars s.available cell1 with
    | some cell2 =>
        let diff := cell1 ^^^ cell2
        let group_mask := (1 <<< cell1) ||| (1 <<< cell2)
        let covered := group_mask &&& minterms
        let mask := ldiff64 ((1 <<< num_vars) - 1) diff
        let imp : implicant_t :=
          ⟨covered, mask, cell1 &&& mask, popcount covered⟩
        { remaining := ldiff64 s.remaining covered
          available := ldiff64 s.available group_mask
          groups := s.groups ++ [imp] }
    | none => s
  else s

/-- The pair pass as the specification words it. -/
def specPairPass (minterms num_vars : Nat) (s : GroupState) : GroupState :=
  (List.range (1 <<< num_vars)).foldl (specPairStep minterms num_vars) s

end Kmap

namespace Kmap

/-! ## Basic facts about `popcount`, `ctz` and adjacency -/

theorem popcountGo_irrel : ∀ f1 f2 y, y ≤ f1 → y ≤ f2 →
    popcountGo f1 y = popcountGo f2 y := by
  intro f1
  induction f1 with
  | zero =>
    intro f2 y h1 _
    have : y = 0 := by omega
    cases f2 <;> simp [popcountGo, this]
  | succ f ih =>
    intro f2 y h1 h2
    cases f2 with
    | zero =>
      have : y = 0 := by omega
      simp [popcountGo, this]
    | succ f2' =>
      show popcountGo (f + 1) y = popcountGo (f2' + 1) y
      unfold popcountGo
      by_cases hy : y = 0
      · simp [hy]
      · rw [if_neg hy, if_neg hy]
        have hlt : y / 2 < y := Nat.div_lt_self (Nat.pos_of_ne_zero hy) (by norm_num)
        rw [ih f2' (y / 2) (by omega) (by omega)]

theorem popcount_zero : popcount 0 = 0 := by
  unfold popcount popcountGo
  rfl

theorem popcount_step (x : Nat) (h : x ≠ 0) :
    popcount x = x % 2 + popcount (x / 2) := by
  cases hx : x with
  | zero => exact absurd hx h
  | succ x' =>
    have h1 : popcount (x' + 1) = (x' + 1) % 2 + popcountGo x' ((x' + 1) / 2) := by
      show popcountGo (x' + 1) (x' + 1) = _
      conv_lhs => unfold popcountGo
      rw [if_neg (by omega)]
    rw [h1]
    congr 1
    show popcountGo x' ((x' + 1) / 2) = popcountGo ((x' + 1) / 2) ((x' + 1) / 2)
    apply popcountGo_irrel <;> omega

theorem popcount_pos (x : Nat) (h : x ≠ 0) : 0 < popcount x := by
  induction x using Nat.strong_induction_on with
  | _ x ih =>
    rw [popcount_step x h]
    rcases Nat.lt_or_ge x 2 with h2 | h2
    · interval_cases x
      · exact absurd rfl h
      · simp
    · rcases Nat.eq_zero_or_pos (x % 2) with hm | hm
      · have hd : x / 2 ≠ 0 := by
          intro h0
          have := Nat.div_add_mod x 2
          omega
        have := ih (x / 2) (Nat.div_lt_self (Nat.pos_of_ne_zero h) (by norm_num)) hd
        omega
      · omega

theorem popcount_eq_zero (x : Nat) : popcount x = 0 ↔ x = 0 := by
  constructor
  · intro h
    by_contra hx
    have := popcount_pos x hx
    omega
  · rintro rfl; exact popcount_zero

theorem popcount_two_mul (k : Nat) : popcount (2 * k) = popcount k := by
  rcases Nat.eq_zero_or_pos k with rfl | hk
  · simp
  · rw [popcount_step (2 * k) (by omega)]
    simp [Nat.mul_mod_right, Nat.mul_div_cancel_left _ (by norm_num : (0:Nat) < 2)]

theorem popcount_two_mul_add_one (k : Nat) : popcount (2 * k + 1) = popcount k + 1 := by
  rw [popcount_step (2 * k + 1) (by omega)]
  have h1 : (2 * k + 1) % 2 = 1 := by omega
  have h2 : (2 * k + 1) / 2 = k := by omega
  rw [h1, h2]; omega

theorem popcount_two_pow (j : Nat) : popcount (2 ^ j) = 1 := by
  induction j with
  | zero => simp [popcount_step 1 (by norm_num), popcount_zero]
  | succ j ih =>
    have : (2:Nat) ^ (j + 1) = 2 * 2 ^ j := by ring
    rw [this, popcount_two_mul, ih]

theorem popcount_two_pow_sub_one (n : Nat) : popcount (2 ^ n - 1) = n := by
  induction n with
  | zero => simp [popcount_zero]
  | succ n ih =>
    have : (2:Nat) ^ (n + 1) - 1 = 2 * (2 ^ n - 1) + 1 := by
      have : (1:Nat) ≤ 2 ^ n := Nat.one_le_two_pow
      omega
    rw [this, popcount_two_mul_add_one, ih]

/-- Splitting `popcount` along a mask: the bits of `a` are partitioned
into those outside `b` and those inside `b`. -/
theorem popcount_split (a b : Nat) :
    popcount a = popcount (Nat.ldiff a b) + popcount (a &&& b) := by
  induction a using Nat.strong_induction_on generalizing b with
  | _ a ih =>
    rcases Nat.eq_zero_or_pos a with rfl | ha
    · have h1 : Nat.ldiff 0 b = 0 := by
        apply Nat.eq_of_testBit_eq; intro i; simp [Nat.testBit_ldiff]
      simp [h1, popcount_zero]
    · have hld2 : Nat.ldiff a b / 2 = Nat.ldiff (a / 2) (b / 2) := by
        apply Nat.eq_of_testBit_eq
        intro i
        simp [Nat.testBit_div_two, Nat.testBit_ldiff]
      have hla2 : (a &&& b) / 2 = (a / 2) &&& (b / 2) := by
        apply Nat.eq_of_testBit_eq
        intro i
        simp [Nat.testBit_div_two, Nat.testBit_land]
      have hmod : a % 2 = Nat.ldiff a b % 2 + (a &&& b) % 2 := by
        have h0 : ∀ x : Nat, x % 2 = if x.testBit 0 then 1 else 0 := by
          intro x
          rcases Nat.mod_two_eq_zero_or_one x with h | h <;>
            simp [Nat.testBit_to_div_mod, h]
        rw [h0 a, h0 (Nat.ldiff a b), h0 (a &&& b),
          Nat.testBit_ldiff, Nat.testBit_land]
        cases hab : a.testBit 0 <;> cases hbb : b.testBit 0 <;> simp [hab, hbb]
      have key : popcount (a / 2) =
          popcount (Nat.ldiff (a / 2) (b / 2)) + popcount ((a / 2) &&& (b / 2)) :=
        ih (a / 2) (Nat.div_lt_self ha (by norm_num)) (b / 2)
      have e1 : popcount (Nat.ldiff a b)
          = Nat.ldiff a b % 2 + popcount (Nat.ldiff (a / 2) (b / 2)) := by
        rcases Nat.eq_zero_or_pos (Nat.ldiff a b) with hz | hp
        · have hz2 : Nat.ldiff (a / 2) (b / 2) = 0 := by rw [← hld2, hz]
          rw [hz, hz2]; simp [popcount_zero]
        · have hne : Nat.ldiff a b ≠ 0 := by omega
          rw [popcount_step (Nat.ldiff a b) hne, hld2]
      have e2 : popcount (a &&& b)
          = (a &&& b) % 2 + popcount ((a / 2) &&& (b / 2)) := by
        rcases Nat.eq_zero_or_pos (a &&& b) with hz | hp
        · have hz2 : (a / 2) &&& (b / 2) = 0 := by rw [← hla2, hz]
          rw [hz, hz2]; simp [popcount_zero]
        · have hne : a &&& b ≠ 0 := by omega
          rw [popcount_step (a &&& b) hne, hla2]
      have hane : a ≠ 0 := by omega
      rw [popcount_step a hane, e1, e2, key]
      omega

theorem popcount_ldiff_of_sub (a b : Nat)
    (h : ∀ i, b.testBit i = true → a.testBit i = true) :
    popcount (Nat.ldiff a b) + popcount b = popcount a := by
  have hab : a &&& b = b := by
    apply Nat.eq_of_testBit_eq
    intro i
    rw [Nat.testBit_land]
    cases hbi : b.testBit i
    · simp
    · simp [h i hbi]
  have := popcount_split a b
  rw [hab] at this
  omega

theorem ctzGo_irrel : ∀ f1 f2 y, y ≤ f1 → y ≤ f2 →
    ctzGo f1 y = ctzGo f2 y := by
  intro f1
  induction f1 with
  | zero =>
    intro f2 y h1 _
    have : y = 0 := by omega
    cases f2 <;> simp [ctzGo, this]
  | succ f ih =>
    intro f2 y h1 h2
    cases f2 with
    | zero =>
      have : y = 0 := by omega
      simp [ctzGo, this]
    | succ f2' =>
      show ctzGo (f + 1) y = ctzGo (f2' + 1) y
      unfold ctzGo
      by_cases hy : y = 0
      · simp [hy]
      · rw [if_neg hy, if_neg hy]
        by_cases hm : y % 2 = 1
        · rw [if_pos hm, if_pos hm]
        · rw [if_neg hm, if_neg hm]
          have hlt : y / 2 < y := Nat.div_lt_self (Nat.pos_of_ne_zero hy) (by norm_num)
          rw [ih f2' (y / 2) (by omega) (by omega)]

theorem ctz_step (x : Nat) (h : x ≠ 0) :
    ctz x = if x % 2 = 1 then 0 else 1 + ctz (x / 2) := by
  cases hx : x with
  | zero => exact absurd hx h
  | succ x' =>
    have h1 : ctz (x' + 1)
        = if (x' + 1) % 2 = 1 then 0 else 1 + ctzGo x' ((x' + 1) / 2) := by
      show ctzGo (x' + 1) (x' + 1) = _
      conv_lhs => unfold ctzGo
      rw [if_neg (by omega)]
    rw [h1]
    by_cases hm : (x' + 1) % 2 = 1
    · rw [if_pos hm, if_pos hm]
    · rw [if_neg hm, if_neg hm]
      congr 1
      show ctzGo x' ((x' + 1) / 2) = ctzGo ((x' + 1) / 2) ((x' + 1) / 2)
      apply ctzGo_irrel <;> omega

theorem ctz_testBit (x : Nat) (h : x ≠ 0) : x.testBit (ctz x) = true := by
  induction x using Nat.strong_induction_on with
  | _ x ih =>
    rw [ctz_step x h]
    rcases Nat.mod_two_eq_zero_or_one x with hm | hm
    · rw [if_neg (by omega)]
      have hd : x / 2 ≠ 0 := by
        intro h0; have := Nat.div_add_mod x 2; omega
      have := ih (x / 2) (Nat.div_lt_self (Nat.pos_of_ne_zero h) (by norm_num)) hd
      rw [Nat.add_comm 1 (ctz (x / 2)), Nat.testBit_succ]
      exact this
    · rw [if_pos hm]
      simp [Nat.testBit_to_div_mod, hm]

/-- Dyadic unfolding of `Nat.ldiff`. -/
theorem ldiff_dyadic (a b : Nat) :
    Nat.ldiff a b
      = (if a % 2 = 1 ∧ b % 2 = 0 then 1 else 0) + 2 * Nat.ldiff (a / 2) (b / 2) := by
  apply Nat.eq_of_testBit_eq
  intro i
  set c : Nat := if a % 2 = 1 ∧ b % 2 = 0 then 1 else 0 with hc
  have hc1 : c ≤ 1 := by
    rw [hc]
    split <;> omega
  cases i with
  | zero =>
    rw [Nat.testBit_ldiff]
    have h0 : ∀ x : Nat, x.testBit 0 = decide (x % 2 = 1) := by
      intro x
      rw [Nat.testBit_to_div_mod]
      norm_num
    rw [h0, h0, h0]
    have hmod : (c + 2 * Nat.ldiff (a / 2) (b / 2)) % 2 = c := by
      omega
    rw [hmod]
    rcases Nat.mod_two_eq_zero_or_one a with ha | ha <;>
      rcases Nat.mod_two_eq_zero_or_one b with hb | hb <;>
      simp [hc, ha, hb]
  | succ i =>
    rw [Nat.testBit_ldiff, Nat.testBit_succ, Nat.testBit_succ, Nat.testBit_succ]
    have hdiv : (c + 2 * Nat.ldiff (a / 2) (b / 2)) / 2 = Nat.ldiff (a / 2) (b / 2) := by
      omega
    rw [hdiv, Nat.testBit_ldiff]

theorem ldiff64Go_eq : ∀ fuel a b, a < 2 ^ fuel →
    ldiff64Go fuel a b = Nat.ldiff a b := by
  intro fuel
  induction fuel with
  | zero =>
    intro a b ha
    have : a = 0 := by
      have : (2:Nat) ^ 0 = 1 := by norm_num
      omega
    rw [this]
    show 0 = Nat.ldiff 0 b
    apply Nat.eq_of_testBit_eq
    intro i
    simp [Nat.testBit_ldiff]
  | succ f ih =>
    intro a b ha
    show (if a % 2 = 1 ∧ b % 2 = 0 then 1 else 0) + 2 * ldiff64Go f (a / 2) (b / 2)
        = Nat.ldiff a b
    rw [ih (a / 2) (b / 2) (by
      have : (2:Nat) ^ (f + 1) = 2 ^ f * 2 := pow_succ 2 f
      omega)]
    rw [← ldiff_dyadic]

theorem ldiff64_eq {a : Nat} (b : Nat) (ha : a < 2 ^ 64) :
    ldiff64 a b = Nat.ldiff a b :=
  ldiff64Go_eq 64 a b ha

theorem testBit_lt_of_lt_two_pow {x n i : Nat} (hx : x < 2 ^ n)
    (hi : x.testBit i = true) : i < n := by
  by_contra hge
  have h2 : (2:Nat) ^ n ≤ 2 ^ i := Nat.pow_le_pow_right (by norm_num) (by omega)
  have := Nat.testBit_lt_two_pow (x := x) (i := i) (lt_of_lt_of_le hx h2)
  rw [hi] at this
  exact absurd this (by simp)

/-- The two cells of a domino differ exactly in bit 0. -/
theorem xor_two_mul_succ (k : Nat) : (2 * k) ^^^ (2 * k + 1) = 1 := by
  apply Nat.eq_of_testBit_eq
  intro i
  rw [Nat.testBit_xor]
  cases i with
  | zero =>
    have h1 : (2 * k).testBit 0 = false := by
      simp [Nat.testBit_to_div_mod, Nat.mul_mod_right]
    have h2 : (2 * k + 1).testBit 0 = true := by
      simp [Nat.testBit_to_div_mod]
      omega
    simp [h1, h2]
  | succ i =>
    have h1 : (2 * k).testBit (i + 1) = k.testBit i := by
      rw [Nat.testBit_succ, Nat.mul_div_cancel_left _ (by norm_num : (0:Nat) < 2)]
    have h2 : (2 * k + 1).testBit (i + 1) = k.testBit i := by
      rw [Nat.testBit_succ]
      congr 1
      omega
    rw [h1, h2]
    simp [Nat.testBit_succ]

theorem are_adjacent_true_iff (a b n : Nat) :
    are_adjacent a b n = true ↔ a < 2 ^ n ∧ b < 2 ^ n ∧ popcount (a ^^^ b) = 1 := by
  simp only [are_adjacent, Nat.one_shiftLeft]
  rcases Nat.lt_or_ge a (2 ^ n) with ha | ha
  · rcases Nat.lt_or_ge b (2 ^ n) with hb | hb
    · rw [if_neg (by simp; omega)]
      simp only [beq_iff_eq]
      exact ⟨fun hp => ⟨ha, hb, hp⟩, fun ⟨_, _, hp⟩ => hp⟩
    · rw [if_pos (by simp; omega)]
      simp; omega
  · rw [if_pos (by simp; omega)]
    simp; omega

theorem are_adjacent_sibling (k n : Nat) (h : 2 * k + 1 < 2 ^ n) :
    are_adjacent (2 * k) (2 * k + 1) n = true := by
  rw [are_adjacent_true_iff]
  refine ⟨by omega, h, ?_⟩
  rw [xor_two_mul_succ]
  simp [popcount_step 1 (by norm_num), popcount_zero]

theorem length_filter_le_of {l : List Nat} {p q : Nat → Bool}
    (h : ∀ a ∈ l, p a = true → q a = true) :
    (l.filter p).length ≤ (l.filter q).length := by
  induction l with
  | nil => simp
  | cons a l ih =>
    have ih' := ih (fun b hb => h b (List.mem_cons_of_mem a hb))
    by_cases hp : p a = true
    · have hq := h a (List.mem_cons_self a l) hp
      simp [List.filter_cons, hp, hq]
      omega
    · simp only [List.filter_cons]
      rw [if_neg (by simp [hp])]
      by_cases hq : q a = true
      · rw [if_pos (by simp [hq])]
        simp
        omega
      · rw [if_neg (by simp [hq])]
        exact ih'

theorem length_filter_lt_of {l : List Nat} {p q : Nat → Bool}
    (h : ∀ a ∈ l, p a = true → q a = true) (k0 : Nat) (hk0 : k0 ∈ l)
    (hq0 : q k0 = true) (hp0 : p k0 = false) :
    (l.filter p).length < (l.filter q).length := by
  induction l with
  | nil => simp at hk0
  | cons a l ih =>
    rcases List.mem_cons.mp hk0 with rfl | hmem
    · have hle := length_filter_le_of (l := l)
        (fun b hb => h b (List.mem_cons_of_mem k0 hb))
      simp only [List.filter_cons]
      rw [if_neg (by simp [hp0]), if_pos (by simp [hq0])]
      simp
      omega
    · by_cases hp : p a = true
      · have hq := h a (List.mem_cons_self a l) hp
        have := ih (fun b hb => h b (List.mem_cons_of_mem a hb)) hmem
        simp only [List.filter_cons]
        rw [if_pos (by simp [hp]), if_pos (by simp [hq])]
        simp
        omega
      · have := ih (fun b hb => h b (List.mem_cons_of_mem a hb)) hmem
        simp only [List.filter_cons]
        rw [if_neg (by simp [hp])]
        by_cases hq : q a = true
        · rw [if_pos (by simp [hq])]
          simp
          omega
        · rw [if_neg (by simp [hq])]
          exact this

theorem dominoCount_le_of_sub {r' r half : Nat} (h : BitSub r' r) :
    dominoCount r' half ≤ dominoCount r half := by
  apply length_filter_le_of
  intro k _ hk
  rcases Bool.or_eq_true_iff.mp hk with h1 | h1
  · simp [h _ h1]
  · simp [h _ h1]

theorem dominoCount_le_half (r half : Nat) : dominoCount r half ≤ half := by
  have := List.length_filter_le
    (fun k => r.testBit (2 * k) || r.testBit (2 * k + 1)) (List.range half)
  simpa [dominoCount] using this

theorem dominoCount_pos {r half c : Nat} (hc : r.testBit c = true)
    (hlt : c < 2 * half) : 1 ≤ dominoCount r half := by
  have hmem : c / 2 ∈ List.range half := by
    rw [List.mem_range]; omega
  have hor : (r.testBit (2 * (c / 2)) || r.testBit (2 * (c / 2) + 1)) = true := by
    rcases Nat.mod_two_eq_zero_or_one c with hm | hm
    · have : 2 * (c / 2) = c := by omega
      rw [this, hc]; simp
    · have : 2 * (c / 2) + 1 = c := by omega
      rw [this, hc]; simp
  have : c / 2 ∈ (List.range half).filter
      (fun k => r.testBit (2 * k) || r.testBit (2 * k + 1)) :=
    List.mem_filter.mpr ⟨hmem, hor⟩
  have := List.length_pos.mpr (List.ne_nil_of_mem this)
  simpa [dominoCount] using this

/-- Strict decrement of the domino count: if the domino of cell `c` is
occupied in `r` but completely cleared in `r' ⊆ r`, a domino is lost. -/
theorem dominoCount_lt {r' r half c : Nat} (hsub : BitSub r' r)
    (hc : r.testBit c = true) (hclt : c < 2 * half)
    (h0 : r'.testBit (2 * (c / 2)) = false)
    (h1 : r'.testBit (2 * (c / 2) + 1) = false) :
    dominoCount r' half + 1 ≤ dominoCount r half := by
  have hmono : ∀ k ∈ List.range half,
      (r'.testBit (2 * k) || r'.testBit (2 * k + 1)) = true →
      (r.testBit (2 * k) || r.testBit (2 * k + 1)) = true := by
    intro k _ hk
    rcases Bool.or_eq_true_iff.mp hk with h2 | h2
    · simp [hsub _ h2]
    · simp [hsub _ h2]
  have hq0 : (r.testBit (2 * (c / 2)) || r.testBit (2 * (c / 2) + 1)) = true := by
    rcases Nat.mod_two_eq_zero_or_one c with hm | hm
    · have : 2 * (c / 2) = c := by omega
      rw [this, hc]; simp
    · have : 2 * (c / 2) + 1 = c := by omega
      rw [this, hc]; simp
  have hp0 : (r'.testBit (2 * (c / 2)) || r'.testBit (2 * (c / 2) + 1)) = false := by
    rw [h0, h1]; rfl
  have hmem : c / 2 ∈ List.range half := by rw [List.mem_range]; omega
  have := length_filter_lt_of hmono (c / 2) hmem hq0 hp0
  simpa [dominoCount] using this

/-- With no domino doubly occupied, bits and dominoes are counted alike. -/
theorem countBits_eq_dominoCount {r : Nat} (half : Nat)
    (hnd : ∀ k, ¬(r.testBit (2 * k) = true ∧ r.testBit (2 * k + 1) = true)) :
    countBits r (2 * half) = dominoCount r half := by
  induction half with
  | zero => simp [countBits, dominoCount]
  | succ m ih =>
    have e1 : 2 * (m + 1) = (2 * m + 1) + 1 := by omega
    have e2 : List.range ((2 * m + 1) + 1)
        = (List.range (2 * m) ++ [2 * m]) ++ [2 * m + 1] := by
      rw [List.range_succ, List.range_succ]
    unfold countBits dominoCount
    rw [e1, e2, List.range_succ, List.filter_append, List.filter_append,
      List.filter_append, List.length_append, List.length_append, List.length_append]
    have ihe : ((List.range (2 * m)).filter (fun i => r.testBit i)).length
        = ((List.range m).filter
            (fun k => r.testBit (2 * k) || r.testBit (2 * k + 1))).length := by
      have := ih
      simpa [countBits, dominoCount] using this
    rw [ihe]
    have hcase := hnd m
    cases he : r.testBit (2 * m) <;> cases ho : r.testBit (2 * m + 1) <;>
      simp [List.filter_cons, he, ho] <;> tauto

theorem countBits_succ (r k : Nat) :
    countBits r (k + 1) = countBits r k + (if r.testBit k then 1 else 0) := by
  unfold countBits
  rw [List.range_succ, List.filter_append, List.length_append]
  cases h : r.testBit k <;> simp [List.filter_cons, h]

theorem countBits_le_mono (r : Nat) {k k' : Nat} (h : k ≤ k') :
    countBits r k ≤ countBits r k' := by
  induction k' with
  | zero =>
    have hk : k = 0 := by omega
    simp [hk]
  | succ m ih =>
    rcases Nat.lt_or_ge k (m + 1) with hlt | hge
    · have h1 := ih (by omega)
      rw [countBits_succ]
      cases r.testBit m <;> simp <;> omega
    · have hk : k = m + 1 := by omega
      simp [hk]

/-! ## Generic invariant rule for folds over `List.range` -/

theorem foldl_range_inv {σ : Type} (step : σ → Nat → σ) (P : Nat → σ → Prop)
    (n : Nat) (s0 : σ) (h0 : P 0 s0)
    (hs : ∀ k s, k < n → P k s → P (k + 1) (step s k)) :
    P n ((List.range n).foldl step s0) := by
  induction n with
  | zero => simpa using h0
  | succ m ih =>
    rw [List.range_succ, List.foldl_append]
    exact hs m _ (by omega)
      (ih (fun k s hk hp => hs k s (by omega) hp))

theorem foldl_lor_init (l : List implicant_t) (x : Nat) :
    l.foldl (fun c i => c ||| i.covered_minterms) x = x ||| unionCovered l := by
  induction l generalizing x with
  | nil => simp [unionCovered]
  | cons a l ih =>
    show l.foldl _ (x ||| a.covered_minterms) = _
    rw [ih (x ||| a.covered_minterms)]
    unfold unionCovered
    show _ = x ||| l.foldl _ (0 ||| a.covered_minterms)
    rw [ih (0 ||| a.covered_minterms)]
    simp [Nat.lor_assoc, unionCovered]

theorem unionCovered_append_single (l : List implicant_t) (g : implicant_t) :
    unionCovered (l ++ [g]) = unionCovered l ||| g.covered_minterms := by
  unfold unionCovered
  rw [List.foldl_append]
  show (unionCovered l) ||| g.covered_minterms = _
  rfl

theorem unionCovered_testBit (l : List implicant_t) (i : Nat) :
    (unionCovered l).testBit i = l.any (fun g => g.covered_minterms.testBit i) := by
  induction l with
  | nil => simp [unionCovered]
  | cons a l ih =>
    unfold unionCovered
    show (List.foldl _ (0 ||| a.covered_minterms) l).testBit i = _
    rw [foldl_lor_init]
    simp only [Nat.testBit_lor, List.any_cons]
    rw [ih]
    simp

/-! ## Small bit-vector helpers -/

theorem testBit_ne_zero {x i : Nat} (h : x.testBit i = true) : x ≠ 0 := by
  intro h0
  rw [h0] at h
  simp at h

theorem testBit_one_shiftLeft (a i : Nat) :
    (1 <<< a).testBit i = decide (a = i) := by
  rw [Nat.one_shiftLeft]
  exact Nat.testBit_two_pow

theorem testBit_pair_mask (a b i : Nat) :
    ((1 <<< a) ||| (1 <<< b)).testBit i = (decide (a = i) || decide (b = i)) := by
  rw [Nat.testBit_lor, testBit_one_shiftLeft, testBit_one_shiftLeft]

theorem pair_mask_land_ne_zero {a b m : Nat} (h : m.testBit a = true) :
    (((1 <<< a) ||| (1 <<< b)) &&& m) ≠ 0 := by
  apply testBit_ne_zero (i := a)
  rw [Nat.testBit_land, testBit_pair_mask, h]
  simp

theorem ldiff_bitSub (a b : Nat) : BitSub (Nat.ldiff a b) a := by
  intro i h
  rw [Nat.testBit_ldiff] at h
  exact (Bool.and_eq_true_iff.mp h).1

theorem bitSub_trans {a b c : Nat} (h1 : BitSub a b) (h2 : BitSub b c) : BitSub a c :=
  fun i hi => h2 i (h1 i hi)

theorem bitSub_le {a b : Nat} (h : BitSub a b) : a ≤ b :=
  Nat.le_of_testBit h

theorem two_pow_eq_two_mul {n : Nat} (h : 1 ≤ n) : 2 ^ n = 2 * 2 ^ (n - 1) := by
  have : n - 1 + 1 = n := by omega
  calc 2 ^ n = 2 ^ (n - 1 + 1) := by rw [this]
    _ = 2 ^ (n - 1) * 2 := pow_succ 2 (n - 1)
    _ = 2 * 2 ^ (n - 1) := by ring

theorem findPartner_none_no_partner {minterms num_vars avail k : Nat}
    (hnone : findPartner minterms num_vars avail k = none)
    (hm : minterms.testBit k = true) :
    ∀ j, k < j → are_adjacent k j num_vars = true → avail.testBit j = false := by
  intro j hj hadj
  by_contra hav
  have hav' : avail.testBit j = true := by
    cases h : avail.testBit j
    · exact absurd h hav
    · rfl
  have hjlt : j < 2 ^ num_vars := ((are_adjacent_true_iff k j num_vars).mp hadj).2.1
  have hmem : j ∈ List.range' (k + 1) ((1 <<< num_vars) - (k + 1)) := by
    rw [List.mem_range'_1, Nat.one_shiftLeft]
    omega
  have := (List.find?_eq_none.mp hnone) j hmem
  apply this
  rw [hav', hadj]
  simp only [Bool.true_and]
  simp [pair_mask_land_ne_zero (b := j) hm]

theorem findPartner_some_facts {minterms num_vars avail k c2 : Nat}
    (hsome : findPartner minterms num_vars avail k = some c2) :
    k < c2 ∧ c2 < 2 ^ num_vars ∧ avail.testBit c2 = true ∧
      are_adjacent k c2 num_vars = true := by
  have hmem := List.mem_of_find?_eq_some hsome
  rw [List.mem_range'_1] at hmem
  have hp := List.find?_some hsome
  have h1 : avail.testBit c2 = true := by
    cases h : avail.testBit c2
    · rw [h] at hp; simp at hp
    · rfl
  have h2 : are_adjacent k c2 num_vars = true := by
    cases h : are_adjacent k c2 num_vars
    · rw [h] at hp; simp at hp
    · rfl
  exact ⟨by omega, ((are_adjacent_true_iff k c2 num_vars).mp h2).2.1, h1, h2⟩

theorem findPartner_skips_sibling {minterms num_vars avail k c2 : Nat}
    (hsome : findPartner minterms num_vars avail k = some c2)
    (hm : minterms.testBit k = true) (hke : k % 2 = 0)
    (hk1 : k + 1 < 2 ^ num_vars) (hne : c2 ≠ k + 1) :
    avail.testBit (k + 1) = false := by
  unfold findPartner at hsome
  have hcount : (1 <<< num_vars) - (k + 1) = ((1 <<< num_vars) - (k + 1) - 1) + 1 := by
    rw [Nat.one_shiftLeft]
    omega
  rw [hcount, List.range'_succ] at hsome
  by_contra hav
  have hav' : avail.testBit (k + 1) = true := by
    cases h : avail.testBit (k + 1)
    · exact absurd h hav
    · rfl
  have hadj : are_adjacent k (k + 1) num_vars = true := by
    have hk2 : 2 * (k / 2) = k := by omega
    have h := are_adjacent_sibling (k / 2) num_vars (by omega)
    rw [hk2] at h
    exact h
  have hpred : (avail.testBit (k + 1) && are_adjacent k (k + 1) num_vars &&
      (((1 <<< k) ||| (1 <<< (k + 1))) &&& minterms != 0)) = true := by
    rw [hav', hadj]
    simp [pair_mask_land_ne_zero (b := k + 1) hm]
  have heq := List.find?_cons_of_pos
    (p := fun cell2 => avail.testBit cell2 && are_adjacent k cell2 num_vars &&
      (((1 <<< k) ||| (1 <<< cell2)) &&& minterms != 0))
    (a := k + 1)
    (List.range' (k + 1 + 1) ((1 <<< num_vars) - (k + 1) - 1)) (by simpa using hpred)
  rw [heq] at hsome
  have : k + 1 = c2 := by injection hsome
  exact hne this.symm

/-- Preservation of the pair-pass invariant across an emission step. -/
theorem pass1Step_emit_inv {minterms num_vars k c2 : Nat} {s : GroupState}
    (hn1 : 1 ≤ num_vars) (hn6 : num_vars ≤ 6)
    (hk : k < 2 ^ num_vars)
    (ha : BitSub s.remaining minterms) (hb : BitSub s.remaining s.available)
    (hc : s.available < 2 ^ (2 ^ num_vars))
    (hd : ∀ m, m < k → s.remaining.testBit m = true →
      ∀ j, m < j → are_adjacent m j num_vars = true → s.available.testBit j = false)
    (hphi : s.groups.length + dominoCount s.remaining (2 ^ (num_vars - 1)) ≤ MAX_GROUPS)
    (heu : unionCovered s.groups ||| s.remaining = minterms)
    (hed : unionCovered s.groups &&& s.remaining = 0)
    (hg : ∀ g ∈ s.groups, WFimp num_vars minterms g)
    (hfind : findPartner minterms num_vars s.available k = some c2)
    (havk : s.available.testBit k = true) (hrk : s.remaining.testBit k = true) :
    Inv1 minterms num_vars (k + 1)
      { remaining := ldiff64 s.remaining (((1 <<< k) ||| (1 <<< c2)) &&& minterms)
        available := ldiff64 s.available ((1 <<< k) ||| (1 <<< c2))
        groups := s.groups ++ [⟨((1 <<< k) ||| (1 <<< c2)) &&& minterms,
          ldiff64 ((1 <<< num_vars) - 1) (k ^^^ c2),
          k &&& ldiff64 ((1 <<< num_vars) - 1) (k ^^^ c2),
          popcount (((1 <<< k) ||| (1 <<< c2)) &&& minterms)⟩] } := by
  have htot : (2:Nat) ^ num_vars = 2 * 2 ^ (num_vars - 1) := two_pow_eq_two_mul hn1
  have hdom64 : (2:Nat) ^ (2 ^ num_vars) ≤ 2 ^ 64 := by
    apply Nat.pow_le_pow_right (by norm_num)
    calc (2:Nat) ^ num_vars ≤ 2 ^ 6 := Nat.pow_le_pow_right (by norm_num) hn6
      _ = 64 := by norm_num
  have hltA : s.available < 2 ^ 64 := lt_of_lt_of_le hc hdom64
  have hltR : s.remaining < 2 ^ 64 := lt_of_le_of_lt (bitSub_le hb) hltA
  have hltM : (1 <<< num_vars) - 1 < 2 ^ 64 := by
    rw [Nat.one_shiftLeft]
    have h1 : (2:Nat) ^ num_vars ≤ 2 ^ 6 := Nat.pow_le_pow_right (by norm_num) hn6
    have h2 : (2:Nat) ^ 6 ≤ 2 ^ 64 := Nat.pow_le_pow_right (by norm_num) (by norm_num)
    omega
  rw [ldiff64_eq (((1 <<< k) ||| (1 <<< c2)) &&& minterms) hltR,
    ldiff64_eq ((1 <<< k) ||| (1 <<< c2)) hltA,
    ldiff64_eq (k ^^^ c2) hltM]
  obtain ⟨hkc2, hc2lt, havc2, hadjc2⟩ := findPartner_some_facts hfind
  have hmk : minterms.testBit k = true := ha k hrk
  set gmask := (1 <<< k) ||| (1 <<< c2) with hgmask
  set covered := gmask &&& minterms with hcovered
  have hcovk : covered.testBit k = true := by
    rw [hcovered, Nat.testBit_land, hgmask, testBit_pair_mask, hmk]
    simp
  have hcov_sub_m : BitSub covered minterms := by
    intro i hi
    rw [hcovered, Nat.testBit_land] at hi
    exact (Bool.and_eq_true_iff.mp hi).2
  have hcov_cases : ∀ i, covered.testBit i = true → i = k ∨ i = c2 := by
    intro i hi
    rw [hcovered, Nat.testBit_land, hgmask, testBit_pair_mask] at hi
    have := (Bool.and_eq_true_iff.mp hi).1
    rcases Bool.or_eq_true_iff.mp this with h | h
    · left; exact (of_decide_eq_true h).symm
    · right; exact (of_decide_eq_true h).symm
  -- remaining after the step
  have hrem'_k : (Nat.ldiff s.remaining covered).testBit k = false := by
    rw [Nat.testBit_ldiff, hcovk]
    simp
  have hrem'_c2 : (Nat.ldiff s.remaining covered).testBit c2 = false := by
    rw [Nat.testBit_ldiff]
    cases hm2 : minterms.testBit c2
    · cases hr2 : s.remaining.testBit c2
      · simp
      · exact absurd (ha c2 hr2) (by rw [hm2]; simp)
    · have : covered.testBit c2 = true := by
        rw [hcovered, Nat.testBit_land, hgmask, testBit_pair_mask, hm2]
        simp
      rw [this]
      simp
  refine ⟨?_, ?_, ?_, ?_, ?_, ?_, ?_, ?_⟩
  · exact bitSub_trans (ldiff_bitSub _ _) ha
  · -- BitSub rem' avail'
    intro i hi
    have hremi : s.remaining.testBit i = true := ldiff_bitSub _ _ i hi
    have hcovi : covered.testBit i = false := by
      rw [Nat.testBit_ldiff] at hi
      cases h : covered.testBit i
      · rfl
      · rw [h] at hi; simp at hi
    rw [Nat.testBit_ldiff, hb i hremi]
    cases hgi : gmask.testBit i
    · simp
    · exfalso
      rw [hgmask, testBit_pair_mask] at hgi
      rcases Bool.or_eq_true_iff.mp hgi with h | h
      · have : i = k := (of_decide_eq_true h).symm
        rw [this] at hcovi
        rw [hcovk] at hcovi
        simp at hcovi
      · have hik : i = c2 := (of_decide_eq_true h).symm
        rw [hik] at hi
        rw [hrem'_c2] at hi
        simp at hi
  · -- the available pool only shrinks, so its bound is preserved
    exact lt_of_le_of_lt (bitSub_le (ldiff_bitSub s.available gmask)) hc
  · -- processed-prefix property
    intro m hm hr j hj hadj
    have hremm : s.remaining.testBit m = true := ldiff_bitSub _ _ m hr
    rcases Nat.lt_or_ge m k with hmlt | hmge
    · have := hd m hmlt hremm j hj hadj
      rw [Nat.testBit_ldiff, this]
      simp
    · exfalso
      have : m = k := by omega
      rw [this] at hr
      rw [hrem'_k] at hr
      simp at hr
  · -- capacity potential
    have hlen : (s.groups ++ [(⟨covered,
        Nat.ldiff ((1 <<< num_vars) - 1) (k ^^^ c2),
        k &&& Nat.ldiff ((1 <<< num_vars) - 1) (k ^^^ c2),
        popcount covered⟩ : implicant_t)]).length = s.groups.length + 1 := by
      simp
    have hsib_gone : (Nat.ldiff s.remaining covered).testBit (2 * (k / 2)) = false ∧
        (Nat.ldiff s.remaining covered).testBit (2 * (k / 2) + 1) = false := by
      rcases Nat.mod_two_eq_zero_or_one k with hke | hko
      · have e0 : 2 * (k / 2) = k := by omega
        constructor
        · rw [e0]; exact hrem'_k
        · rw [e0]
          have hk1 : k + 1 < 2 ^ num_vars := by omega
          by_cases hc2e : c2 = k + 1
          · rw [← hc2e]; exact hrem'_c2
          · have hav1 := findPartner_skips_sibling hfind hmk hke hk1 hc2e
            rw [Nat.testBit_ldiff]
            cases hr1 : s.remaining.testBit (k + 1)
            · simp
            · exact absurd (hb _ hr1) (by rw [hav1]; simp)
      · have e1 : 2 * (k / 2) + 1 = k := by omega
        constructor
        · have e0 : 2 * (k / 2) = k - 1 := by omega
          rw [e0]
          rw [Nat.testBit_ldiff]
          cases hr0 : s.remaining.testBit (k - 1)
          · simp
          · exfalso
            have hadjs : are_adjacent (k - 1) k num_vars = true := by
              have h2 : 2 * (k / 2) = k - 1 := by omega
              have := are_adjacent_sibling (k / 2) num_vars (by omega)
              rw [h2] at this
              have e2 : k - 1 + 1 = k := by omega
              rw [e2] at this
              exact this
            have := hd (k - 1) (by omega) hr0 k (by omega) hadjs
            rw [this] at havk
            simp at havk
        · rw [e1]; exact hrem'_k
    have hdlt := @dominoCount_lt _ _ (2 ^ (num_vars - 1)) _
      (ldiff_bitSub s.remaining covered) hrk (by omega) hsib_gone.1 hsib_gone.2
    show (s.groups ++ [(⟨covered,
        Nat.ldiff ((1 <<< num_vars) - 1) (k ^^^ c2),
        k &&& Nat.ldiff ((1 <<< num_vars) - 1) (k ^^^ c2),
        popcount covered⟩ : implicant_t)]).length
      + dominoCount (Nat.ldiff s.remaining covered) (2 ^ (num_vars - 1)) ≤ MAX_GROUPS
    rw [hlen]
    omega
  · -- union covers exactly the retired minterms
    rw [unionCovered_append_single]
    apply Nat.eq_of_testBit_eq
    intro i
    have hu : ((unionCovered s.groups).testBit i || s.remaining.testBit i)
        = minterms.testBit i := by
      have h := congrArg (fun x => x.testBit i) heu
      simp only [Nat.testBit_lor] at h
      exact h
    simp only [Nat.testBit_lor, Nat.testBit_ldiff]
    cases hci : covered.testBit i
    · simpa using hu
    · have hmi : minterms.testBit i = true := hcov_sub_m i hci
      simp [hmi]
  · -- union is disjoint from the new remaining
    rw [unionCovered_append_single]
    apply Nat.eq_of_testBit_eq
    intro i
    have hx : ((unionCovered s.groups).testBit i && s.remaining.testBit i) = false := by
      have h := congrArg (fun x => x.testBit i) hed
      simp only [Nat.testBit_land, Nat.zero_testBit] at h
      exact h
    simp only [Nat.testBit_land, Nat.testBit_lor, Nat.testBit_ldiff, Nat.zero_testBit]
    cases hci : covered.testBit i
    · simpa using hx
    · simp
  · -- well-formedness
    intro g hgmem
    rcases List.mem_append.mp hgmem with hold | hnew
    · exact hg g hold
    · have hgeq : g = ⟨covered,
          Nat.ldiff ((1 <<< num_vars) - 1) (k ^^^ c2),
          k &&& Nat.ldiff ((1 <<< num_vars) - 1) (k ^^^ c2),
          popcount covered⟩ := by
        simpa using hnew
      subst hgeq
      have hdiff_sub : ∀ i, (k ^^^ c2).testBit i = true →
          ((1 <<< num_vars) - 1).testBit i = true := by
        intro i hi
        have hxlt : k ^^^ c2 < 2 ^ num_vars := Nat.xor_lt_two_pow hk hc2lt
        have := testBit_lt_of_lt_two_pow hxlt hi
        rw [Nat.one_shiftLeft, Nat.testBit_two_pow_sub_one]
        simpa using this
      refine ⟨?_, ?_, rfl, testBit_ne_zero hcovk, hcov_sub_m⟩
      · intro i hi
        rcases hcov_cases i hi with h | h
        · rw [h]
        · rw [h]
          apply Nat.eq_of_testBit_eq
          intro j
          simp only [Nat.testBit_land, Nat.testBit_ldiff]
          cases hdj : (k ^^^ c2).testBit j
          · have hkj : k.testBit j = c2.testBit j := by
              have h2 : (k ^^^ c2).testBit j = false := hdj
              rw [Nat.testBit_xor] at h2
              cases hk1 : k.testBit j <;> cases hc1 : c2.testBit j <;>
                rw [hk1, hc1] at h2 <;> simp_all
            rw [hkj]
          · simp
      · show num_vars - 1 ≤ popcount (Nat.ldiff ((1 <<< num_vars) - 1) (k ^^^ c2))
        have hpd : popcount (k ^^^ c2) = 1 :=
          ((are_adjacent_true_iff k c2 num_vars).mp hadjc2).2.2
        have := popcount_ldiff_of_sub ((1 <<< num_vars) - 1) (k ^^^ c2) hdiff_sub
        rw [hpd] at this
        rw [Nat.one_shiftLeft] at this ⊢
        rw [popcount_two_pow_sub_one] at this
        omega

theorem pass1Step_inv {minterms num_vars : Nat} (hn1 : 1 ≤ num_vars)
    (hn6 : num_vars ≤ 6)
    (k : Nat) (s : GroupState) (hk : k < 2 ^ num_vars)
    (hinv : Inv1 minterms num_vars k s) :
    Inv1 minterms num_vars (k + 1) (pass1Step minterms num_vars s k) := by
  obtain ⟨ha, hb, hc, hd, hphi, heu, hed, hg⟩ := hinv
  have htot : (2:Nat) ^ num_vars = 2 * 2 ^ (num_vars - 1) := two_pow_eq_two_mul hn1
  unfold pass1Step
  by_cases hcap : MAX_GROUPS ≤ s.groups.length
  · rw [if_pos hcap]
    refine ⟨ha, hb, hc, ?_, hphi, heu, hed, hg⟩
    intro m hm hr j hj hadj
    rcases Nat.lt_or_ge m k with hmk | hmk
    · exact hd m hmk hr j hj hadj
    · exfalso
      have hmk' : m = k := by omega
      rw [hmk'] at hr
      have h1 : 1 ≤ dominoCount s.remaining (2 ^ (num_vars - 1)) :=
        dominoCount_pos hr (by omega)
      unfold MAX_GROUPS at hcap hphi
      omega
  · rw [if_neg hcap]
    by_cases hcond : (s.available.testBit k && s.remaining.testBit k) = true
    · rw [if_pos hcond]
      have havk : s.available.testBit k = true := (Bool.and_eq_true_iff.mp hcond).1
      have hrk : s.remaining.testBit k = true := (Bool.and_eq_true_iff.mp hcond).2
      have hmk : minterms.testBit k = true := ha k hrk
      cases hfind : findPartner minterms num_vars s.available k with
      | none =>
        show Inv1 minterms num_vars (k + 1) s
        refine ⟨ha, hb, hc, ?_, hphi, heu, hed, hg⟩
        intro m hm hr j hj hadj
        rcases Nat.lt_or_ge m k with hmlt | hmge
        · exact hd m hmlt hr j hj hadj
        · have hmk' : m = k := by omega
          rw [hmk'] at hadj
          exact findPartner_none_no_partner hfind hmk j (by omega) hadj
      | some c2 =>
        exact pass1Step_emit_inv hn1 hn6 hk ha hb hc hd hphi heu hed hg hfind havk hrk
    · rw [if_neg hcond]
      refine ⟨ha, hb, hc, ?_, hphi, heu, hed, hg⟩
      intro m hm hr j hj hadj
      rcases Nat.lt_or_ge m k with hmlt | hmge
      · exact hd m hmlt hr j hj hadj
      · exfalso
        have hmk' : m = k := by omega
        rw [hmk'] at hr
        have hav : s.available.testBit k = true := hb k hr
        exact hcond (by rw [hav, hr]; rfl)

/-- The pair-pass invariant holds before the first cell is processed. -/
theorem Inv1_init {minterms dont_cares num_vars : Nat}
    (hnv : num_vars ≤ 6)
    (husable : minterms ||| dont_cares < 2 ^ (2 ^ num_vars)) :
    Inv1 minterms num_vars 0 ⟨minterms, minterms ||| dont_cares, []⟩ := by
  refine ⟨?_, ?_, ?_, ?_, ?_, ?_, ?_, ?_⟩
  · exact fun i hi => hi
  · intro i hi
    simp only [Nat.testBit_lor, hi]
    rfl
  · exact husable
  · intro m hm
    omega
  · show 0 + dominoCount minterms (2 ^ (num_vars - 1)) ≤ MAX_GROUPS
    have h1 := dominoCount_le_half minterms (2 ^ (num_vars - 1))
    have h2 : (2:Nat) ^ (num_vars - 1) ≤ 32 := by
      calc (2:Nat) ^ (num_vars - 1) ≤ 2 ^ 5 :=
        Nat.pow_le_pow_right (by norm_num) (by omega)
      _ = 32 := by norm_num
    unfold MAX_GROUPS
    omega
  · show unionCovered [] ||| minterms = minterms
    simp [unionCovered]
  · show unionCovered [] &&& minterms = 0
    simp [unionCovered]
  · intro g hg
    simp at hg

/-- The pair-pass invariant holds of the full pass, started from the
engine's initial state. -/
theorem pass1_inv {minterms dont_cares num_vars : Nat} (hn1 : 1 ≤ num_vars)
    (hnv : num_vars ≤ 6)
    (husable : minterms ||| dont_cares < 2 ^ (2 ^ num_vars)) :
    Inv1 minterms num_vars (2 ^ num_vars)
      (pass1 minterms num_vars ⟨minterms, minterms ||| dont_cares, []⟩) := by
  unfold pass1
  rw [Nat.one_shiftLeft]
  apply foldl_range_inv (P := Inv1 minterms num_vars)
  · exact Inv1_init hnv husable
  · intro k s hk hp
    exact pass1Step_inv hn1 hnv k s hk hp

/-- After a completed pair pass, no two sibling cells both remain. -/
theorem rem_sibling_free {minterms num_vars : Nat} {s : GroupState}
    (hmb : minterms < 2 ^ (2 ^ num_vars))
    (ha : BitSub s.remaining minterms) (hb : BitSub s.remaining s.available)
    (hd : ∀ m, m < 2 ^ num_vars → s.remaining.testBit m = true →
      ∀ j, m < j → are_adjacent m j num_vars = true → s.available.testBit j = false) :
    ∀ t, ¬(s.remaining.testBit (2 * t) = true ∧
      s.remaining.testBit (2 * t + 1) = true) := by
  rintro t ⟨h0, h1⟩
  have hm1 : minterms.testBit (2 * t + 1) = true := ha _ h1
  have hlt : 2 * t + 1 < 2 ^ num_vars :=
    testBit_lt_of_lt_two_pow hmb hm1
  have hadj := are_adjacent_sibling t num_vars hlt
  have := hd (2 * t) (by omega) h0 (2 * t + 1) (by omega) hadj
  have := hb _ h1
  simp_all

/-- After a completed pair pass the quad pass finds nothing to do. -/
theorem pass2_id {minterms num_vars : Nat} {s : GroupState}
    (hmb : minterms < 2 ^ (2 ^ num_vars))
    (ha : BitSub s.remaining minterms)
    (hd : ∀ m, m < 2 ^ num_vars → s.remaining.testBit m = true →
      ∀ j, m < j → are_adjacent m j num_vars = true → s.available.testBit j = false) :
    pass2 minterms num_vars s = s := by
  unfold pass2
  rw [Nat.one_shiftLeft]
  apply foldl_range_inv (P := fun _ s' => s' = s)
  · rfl
  · intro k s' hk hs'
    rw [hs']
    unfold pass2Step
    by_cases hguard : (decide (MAX_GROUPS ≤ s.groups.length) || (s.remaining == 0)) = true
    · rw [if_pos hguard]
    · rw [if_neg hguard]
      by_cases hrk : s.remaining.testBit k = true
      · rw [if_pos hrk]
        have hq : findQuad minterms num_vars s.available k = none := by
          unfold findQuad
          rw [List.findSome?_eq_none]
          intro c2 hc2
          rw [List.mem_range'_1] at hc2
          by_cases hcnd : (are_adjacent k c2 num_vars && s.available.testBit c2) = true
          · exfalso
            have hadj := (Bool.and_eq_true_iff.mp hcnd).1
            have hav := (Bool.and_eq_true_iff.mp hcnd).2
            have hklt : k < 2 ^ num_vars :=
              testBit_lt_of_lt_two_pow hmb (ha k hrk)
            have := hd k hklt hrk c2 (by omega) hadj
            simp_all
          · rw [if_neg hcnd]
        rw [hq]
      · rw [if_neg hrk]

/-- The final pass appends exactly one singleton implicant per remaining
minterm, in cell order, and the capacity guard never fires. -/
theorem pass3_char {num_vars : Nat} {s : GroupState} (hn1 : 1 ≤ num_vars)
    (hrb : ∀ i, s.remaining.testBit i = true → i < 2 ^ num_vars)
    (hnd : ∀ t, ¬(s.remaining.testBit (2 * t) = true ∧
      s.remaining.testBit (2 * t + 1) = true))
    (hphi : s.groups.length + dominoCount s.remaining (2 ^ (num_vars - 1)) ≤ MAX_GROUPS) :
    pass3 num_vars s =
      GroupState.mk s.remaining s.available (s.groups ++
        ((List.range (2 ^ num_vars)).filter (fun c => s.remaining.testBit c)).map
          (singleImp num_vars)) := by
  have htot : (2:Nat) ^ num_vars = 2 * 2 ^ (num_vars - 1) := two_pow_eq_two_mul hn1
  have hcnt : countBits s.remaining (2 ^ num_vars)
      = dominoCount s.remaining (2 ^ (num_vars - 1)) := by
    rw [htot]
    exact countBits_eq_dominoCount _ hnd
  have hstep : ∀ k s', k < 2 ^ num_vars →
      (s'.remaining = s.remaining ∧ s'.available = s.available ∧
        s'.groups = s.groups ++
          ((List.range k).filter (fun c => s.remaining.testBit c)).map
            (singleImp num_vars)) →
      ((pass3Step num_vars s' k).remaining = s.remaining ∧
        (pass3Step num_vars s' k).available = s.available ∧
        (pass3Step num_vars s' k).groups = s.groups ++
          ((List.range (k + 1)).filter (fun c => s.remaining.testBit c)).map
            (singleImp num_vars)) := by
    intro k s' hk hp
    obtain ⟨hr, hv, hgs⟩ := hp
    by_cases hrk : s.remaining.testBit k = true
    · have hlen : s'.groups.length = s.groups.length + countBits s.remaining k := by
        rw [hgs]
        simp [countBits]
      have hguard : ¬ (MAX_GROUPS ≤ s'.groups.length) := by
        rw [hlen]
        have h1 : countBits s.remaining k + 1 ≤ countBits s.remaining (k + 1) := by
          rw [countBits_succ, hrk]
          simp
        have h2 : countBits s.remaining (k + 1) ≤ countBits s.remaining (2 ^ num_vars) :=
          countBits_le_mono _ (by omega)
        omega
      have hstep_eq : pass3Step num_vars s' k =
          { s' with groups := s'.groups ++
            [⟨1 <<< k, (1 <<< num_vars) - 1, k, 1⟩] } := by
        unfold pass3Step
        rw [if_neg hguard, hr, if_pos hrk]
      rw [hstep_eq]
      refine ⟨hr, hv, ?_⟩
      show s'.groups ++ _ = _
      rw [hgs, List.range_succ, List.filter_append, List.map_append]
      simp [List.filter_cons, hrk, singleImp]
    · have hstep_eq : pass3Step num_vars s' k = s' := by
        unfold pass3Step
        by_cases hguard : (MAX_GROUPS ≤ s'.groups.length)
        · rw [if_pos hguard]
        · rw [if_neg hguard, hr, if_neg hrk]
      rw [hstep_eq]
      refine ⟨hr, hv, ?_⟩
      rw [hgs, List.range_succ, List.filter_append, List.map_append]
      simp [List.filter_cons, hrk]
  have h := foldl_range_inv (pass3Step num_vars) (fun k s' =>
      s'.remaining = s.remaining ∧ s'.available = s.available ∧
      s'.groups = s.groups ++
        ((List.range k).filter (fun c => s.remaining.testBit c)).map
          (singleImp num_vars))
    (2 ^ num_vars) s ⟨rfl, rfl, by simp⟩ hstep
  obtain ⟨h1, h2, h3⟩ := h
  unfold pass3
  rw [Nat.one_shiftLeft]
  have heta : List.foldl (pass3Step num_vars) s (List.range (2 ^ num_vars)) =
      GroupState.mk
        (List.foldl (pass3Step num_vars) s (List.range (2 ^ num_vars))).remaining
        (List.foldl (pass3Step num_vars) s (List.range (2 ^ num_vars))).available
        (List.foldl (pass3Step num_vars) s (List.range (2 ^ num_vars))).groups := rfl
  rw [heta, h1, h2, h3]

theorem unionCovered_append (l1 l2 : List implicant_t) :
    unionCovered (l1 ++ l2) = unionCovered l1 ||| unionCovered l2 := by
  unfold unionCovered
  rw [List.foldl_append]
  exact foldl_lor_init l2 _

theorem union_singles {r total num_vars : Nat}
    (hb : ∀ i, r.testBit i = true → i < total) :
    unionCovered (((List.range total).filter (fun c => r.testBit c)).map
      (singleImp num_vars)) = r := by
  apply Nat.eq_of_testBit_eq
  intro i
  rw [unionCovered_testBit]
  cases hri : r.testBit i
  · apply List.any_eq_false.mpr
    intro g hgmem
    rw [List.mem_map] at hgmem
    obtain ⟨c, hcmem, hceq⟩ := hgmem
    rw [List.mem_filter] at hcmem
    rw [← hceq]
    show ¬ ((1 <<< c).testBit i = true)
    rw [testBit_one_shiftLeft]
    intro hdec
    have : c = i := of_decide_eq_true hdec
    rw [this] at hcmem
    rw [hri] at hcmem
    simp at hcmem
  · apply List.any_eq_true.mpr
    refine ⟨singleImp num_vars i, ?_, ?_⟩
    · apply List.mem_map.mpr
      exact ⟨i, List.mem_filter.mpr ⟨List.mem_range.mpr (hb i hri), hri⟩, rfl⟩
    · show (1 <<< i).testBit i = true
      rw [testBit_one_shiftLeft]
      simp

theorem land_two_pow_sub_one_self {c num_vars : Nat} (hc : c < 2 ^ num_vars) :
    c &&& ((1 <<< num_vars) - 1) = c := by
  apply Nat.eq_of_testBit_eq
  intro j
  rw [Nat.testBit_land, Nat.one_shiftLeft, Nat.testBit_two_pow_sub_one]
  cases hcj : c.testBit j
  · simp
  · have : j < num_vars := testBit_lt_of_lt_two_pow hc hcj
    simp [this]

theorem singleImp_wf {minterms num_vars c : Nat} (hc : c < 2 ^ num_vars)
    (hm : minterms.testBit c = true) :
    WFimp num_vars minterms (singleImp num_vars c) := by
  refine ⟨?_, ?_, ?_, ?_, ?_⟩
  · intro i hi
    have h2 : (1 <<< c).testBit i = true := hi
    rw [testBit_one_shiftLeft] at h2
    have hce : c = i := of_decide_eq_true h2
    rw [← hce]
    show c &&& ((1 <<< num_vars) - 1) = c
    exact land_two_pow_sub_one_self hc
  · show num_vars - 1 ≤ popcount ((1 <<< num_vars) - 1)
    rw [Nat.one_shiftLeft, popcount_two_pow_sub_one]
    omega
  · show (1:Nat) = popcount (1 <<< c)
    rw [Nat.one_shiftLeft, popcount_two_pow]
  · show (1:Nat) <<< c ≠ 0
    apply testBit_ne_zero (i := c)
    rw [testBit_one_shiftLeft]
    simp
  · intro i hi
    have h2 : (1 <<< c).testBit i = true := hi
    rw [testBit_one_shiftLeft] at h2
    have hce : c = i := of_decide_eq_true h2
    rw [← hce]
    exact hm

/-- Master characterization of `find_groups_with_dont_cares` on a domain
obeying the §3 bounds: the emitted implicants cover exactly the required
minterms, their number never exceeds `MAX_GROUPS` (so the capacity guard
never drops a minterm), every implicant is well-formed, and the quad pass
contributes nothing. -/
theorem engine_master {minterms dont_cares num_vars : Nat}
    (hn2 : 2 ≤ num_vars) (hnv : num_vars ≤ 6)
    (husable : minterms ||| dont_cares < 2 ^ (2 ^ num_vars)) :
    unionCovered (find_groups_with_dont_cares minterms dont_cares num_vars) = minterms ∧
    (find_groups_with_dont_cares minterms dont_cares num_vars).length ≤ MAX_GROUPS ∧
    (∀ g ∈ find_groups_with_dont_cares minterms dont_cares num_vars,
      WFimp num_vars minterms g) ∧
    pass2 minterms num_vars
        (pass1 minterms num_vars ⟨minterms, minterms ||| dont_cares, []⟩)
      = pass1 minterms num_vars ⟨minterms, minterms ||| dont_cares, []⟩ := by
  have hn1 : 1 ≤ num_vars := by omega
  have hmb : minterms < 2 ^ (2 ^ num_vars) := by
    have hle : minterms ≤ minterms ||| dont_cares := by
      apply Nat.le_of_testBit
      intro i hi
      rw [Nat.testBit_lor, hi]
      rfl
    omega
  obtain ⟨ha, hb, hc, hd, hphi, heu, hed, hg⟩ :=
    @pass1_inv minterms dont_cares num_vars hn1 hnv husable
  set s1 := pass1 minterms num_vars ⟨minterms, minterms ||| dont_cares, []⟩ with hs1
  have hrb : ∀ i, s1.remaining.testBit i = true → i < 2 ^ num_vars :=
    fun i hi => testBit_lt_of_lt_two_pow hmb (ha i hi)
  have hnd := rem_sibling_free hmb ha hb hd
  have hp2 := pass2_id hmb ha hd
  have hp3 := pass3_char hn1 hrb hnd hphi
  have htot : (2:Nat) ^ num_vars = 2 * 2 ^ (num_vars - 1) := two_pow_eq_two_mul hn1
  have hout : find_groups_with_dont_cares minterms dont_cares num_vars
      = s1.groups ++
        ((List.range (2 ^ num_vars)).filter (fun c => s1.remaining.testBit c)).map
          (singleImp num_vars) := by
    unfold find_groups_with_dont_cares
    rw [← hs1, hp2, hp3]
  refine ⟨?_, ?_, ?_, hp2⟩
  · rw [hout, unionCovered_append, union_singles hrb]
    exact heu
  · rw [hout, List.length_append, List.length_map]
    have : ((List.range (2 ^ num_vars)).filter
        (fun c => s1.remaining.testBit c)).length = countBits s1.remaining (2 ^ num_vars) := rfl
    rw [this, htot, countBits_eq_dominoCount _ hnd]
    omega
  · rw [hout]
    intro g hgmem
    rcases List.mem_append.mp hgmem with hold | hnew
    · exact hg g hold
    · rw [List.mem_map] at hnew
      obtain ⟨c, hcmem, hceq⟩ := hnew
      rw [List.mem_filter, List.mem_range] at hcmem
      rw [← hceq]
      exact singleImp_wf hcmem.1 (ha c hcmem.2)

theorem land_self_imp (a : Nat) : a &&& a = a := by
  apply Nat.eq_of_testBit_eq
  intro i
  rw [Nat.testBit_land]
  cases a.testBit i <;> simp

theorem land_sub_trans {a b c : Nat} (h1 : a &&& b = a) (h2 : b &&& c = b) :
    a &&& c = a := by
  apply Nat.eq_of_testBit_eq
  intro i
  have e1 := congrArg (fun x => x.testBit i) h1
  have e2 := congrArg (fun x => x.testBit i) h2
  simp only [Nat.testBit_land] at e1 e2 ⊢
  cases ha : a.testBit i <;> cases hb : b.testBit i <;> cases hc : c.testBit i <;>
    simp_all

theorem list_exists_max_size :
    ∀ (S : List implicant_t), S ≠ [] → ∃ b ∈ S, ∀ c ∈ S, c.size ≤ b.size := by
  intro S
  induction S with
  | nil => intro h; exact absurd rfl h
  | cons a S ih =>
    intro _
    rcases S with _ | ⟨a2, S2⟩
    · exact ⟨a, by simp, by simp⟩
    · obtain ⟨b, hbmem, hbmax⟩ := ih (by simp)
      rcases Nat.lt_or_ge a.size b.size with hlt | hle
      · refine ⟨b, by simp [hbmem], ?_⟩
        intro c hc
        rcases List.mem_cons.mp hc with rfl | hc2
        · omega
        · exact hbmax c hc2
      · refine ⟨a, by simp, ?_⟩
        intro c hc
        rcases List.mem_cons.mp hc with rfl | hc2
        · omega
        · have := hbmax c hc2
          omega

/-- Every implicant has a cover of maximal size that is itself not
subsumed by anything larger. -/
theorem exists_max_cover (l : List implicant_t) (a : implicant_t) (ha : a ∈ l) :
    ∃ b ∈ l, (a.covered_minterms &&& b.covered_minterms = a.covered_minterms) ∧
      a.size ≤ b.size ∧ subsumedByLarger l b = false := by
  set S := l.filter (fun b =>
    (a.covered_minterms &&& b.covered_minterms == a.covered_minterms) &&
      decide (a.size ≤ b.size)) with hS
  have haS : a ∈ S := by
    rw [hS]
    apply List.mem_filter.mpr
    refine ⟨ha, ?_⟩
    simp [land_self_imp]
  obtain ⟨b, hbS, hbmax⟩ := list_exists_max_size S (List.ne_nil_of_mem haS)
  have hbl := (List.mem_filter.mp hbS).1
  have hbprop := (List.mem_filter.mp hbS).2
  have hbsub : a.covered_minterms &&& b.covered_minterms = a.covered_minterms := by
    have := (Bool.and_eq_true_iff.mp hbprop).1
    exact beq_iff_eq.mp this
  have hbsize : a.size ≤ b.size := by
    have := (Bool.and_eq_true_iff.mp hbprop).2
    exact of_decide_eq_true this
  refine ⟨b, hbl, hbsub, hbsize, ?_⟩
  apply List.any_eq_false.mpr
  intro c hc
  intro hcontra
  have hcsub : b.covered_minterms &&& c.covered_minterms = b.covered_minterms :=
    beq_iff_eq.mp (Bool.and_eq_true_iff.mp hcontra).1
  have hcsize : b.size < c.size := of_decide_eq_true (Bool.and_eq_true_iff.mp hcontra).2
  have hcS : c ∈ S := by
    rw [hS]
    apply List.mem_filter.mpr
    refine ⟨hc, ?_⟩
    have h1 : a.covered_minterms &&& c.covered_minterms = a.covered_minterms :=
      land_sub_trans hbsub hcsub
    simp [h1]
    omega
  have := hbmax c hcS
  omega

theorem origRedundant_iff {l : List implicant_t} {i : Nat} (h : i < l.length) :
    origRedundant l i ↔ subsumedByLarger l (l.getD i default) = true := by
  constructor
  · rintro ⟨j, hj, _, hsub, hsize⟩
    apply List.any_eq_true.mpr
    refine ⟨l.getD j default, ?_, ?_⟩
    · rw [List.getD_eq_getElem l default hj]
      exact List.getElem_mem hj
    · rw [Bool.and_eq_true_iff]
      exact ⟨beq_iff_eq.mpr hsub, decide_eq_true hsize⟩
  · intro hany
    obtain ⟨b, hbmem, hbp⟩ := List.any_eq_true.mp hany
    obtain ⟨j, hj, hjb⟩ := List.getElem_of_mem hbmem
    have hsub : (l.getD i default).covered_minterms &&& b.covered_minterms
        = (l.getD i default).covered_minterms :=
      beq_iff_eq.mp (Bool.and_eq_true_iff.mp hbp).1
    have hsize : (l.getD i default).size < b.size :=
      of_decide_eq_true (Bool.and_eq_true_iff.mp hbp).2
    refine ⟨j, hj, ?_, ?_, ?_⟩
    · intro hji
      subst hji
      rw [List.getD_eq_getElem l default h] at hsize
      rw [hjb] at hsize
      omega
    · rw [List.getD_eq_getElem l default hj, hjb]
      exact hsub
    · rw [List.getD_eq_getElem l default hj, hjb]
      exact hsize

theorem land_eq_bitSub {a b : Nat} (h : a &&& b = a) : BitSub a b := by
  intro i hi
  have e := congrArg (fun x => x.testBit i) h
  simp only [Nat.testBit_land] at e
  cases hb : b.testBit i
  · rw [hi, hb] at e; simp at e
  · rfl

/-- Characterization of the marking sweep of
`remove_redundant_implicants` when all input sizes are positive: entry
`i` ends up marked (size 0) exactly when some other implicant of the
original list covers it and is strictly larger; all judgments reduce to
the original data. -/
theorem sweep_char {l : List implicant_t} (hpos : ∀ g ∈ l, 0 < g.size) :
    (sweep l).length = l.length ∧
    ∀ i, i < l.length →
      ((sweep l).getD i default = l.getD i default ∧ ¬origRedundant l i) ∨
      ((sweep l).getD i default = { l.getD i default with size := 0 } ∧
        origRedundant l i) := by
  have key : ∀ (P : Nat → List implicant_t → Prop),
      (P = fun k s => s.length = l.length ∧
        (∀ i, k ≤ i → i < l.length → s.getD i default = l.getD i default) ∧
        (∀ i, i < k →
          (s.getD i default = l.getD i default ∧ ¬origRedundant l i) ∨
          (s.getD i default = { l.getD i default with size := 0 } ∧
            origRedundant l i))) →
      P l.length (sweep l) := by
    intro P hP
    unfold sweep
    apply foldl_range_inv
    · rw [hP]
      exact ⟨rfl, fun i _ _ => rfl, fun i hi => absurd hi (by omega)⟩
    · intro k s hk hp
      rw [hP] at hp ⊢
      obtain ⟨hlen, hup, hdone⟩ := hp
      have hsk : s.getD k default = l.getD k default := hup k (le_refl k) hk
      have hposk : 0 < (l.getD k default).size := by
        apply hpos
        rw [List.getD_eq_getElem l default hk]
        exact List.getElem_mem hk
      have hiff : hasCoveringLarger s k = true ↔ origRedundant l k := by
        constructor
        · intro hany
          obtain ⟨j, hjmem, hjp⟩ := List.any_eq_true.mp (hany)
          rw [List.mem_range, hlen] at hjmem
          have hkj : (k != j) = true := (Bool.and_eq_true_iff.mp
            (Bool.and_eq_true_iff.mp (Bool.and_eq_true_iff.mp hjp).1).1).1
          have hj0 : ((s.getD j default).size != 0) = true := (Bool.and_eq_true_iff.mp
            (Bool.and_eq_true_iff.mp (Bool.and_eq_true_iff.mp hjp).1).1).2
          have hjsub : (s.getD k default).covered_minterms &&&
              (s.getD j default).covered_minterms
              = (s.getD k default).covered_minterms :=
            beq_iff_eq.mp (Bool.and_eq_true_iff.mp (Bool.and_eq_true_iff.mp hjp).1).2
          have hjgt : (s.getD k default).size < (s.getD j default).size := by
            have := (Bool.and_eq_true_iff.mp hjp).2
            exact of_decide_eq_true this
          have hsj : s.getD j default = l.getD j default := by
            rcases Nat.lt_or_ge j k with hjk | hjk
            · rcases hdone j hjk with ⟨he, _⟩ | ⟨he, _⟩
              · exact he
              · exfalso
                rw [he] at hj0
                simp at hj0
            · exact hup j hjk hjmem
          refine ⟨j, hjmem, ?_, ?_, ?_⟩
          · intro hje
            rw [hje] at hkj
            simp at hkj
          · rw [← hsk, ← hsj]
            exact hjsub
          · rw [← hsk, ← hsj]
            exact hjgt
        · rintro ⟨j0, hj0lt, hj0ne, hj0sub, hj0sz⟩
          have ha0mem : l.getD j0 default ∈ l := by
            rw [List.getD_eq_getElem l default hj0lt]
            exact List.getElem_mem hj0lt
          obtain ⟨b, hbmem, hbsub, hbsz, hbuns⟩ := exists_max_cover l _ ha0mem
          obtain ⟨jb, hjblt, hjbeq⟩ := List.getElem_of_mem hbmem
          have hlb : l.getD jb default = b := by
            rw [List.getD_eq_getElem l default hjblt, hjbeq]
          have hsjb : s.getD jb default = l.getD jb default := by
            rcases Nat.lt_or_ge jb k with hjk | hjk
            · rcases hdone jb hjk with ⟨he, _⟩ | ⟨he, hor⟩
              · exact he
              · exfalso
                rw [origRedundant_iff hjblt, hlb] at hor
                rw [hor] at hbuns
                simp at hbuns
            · exact hup jb hjk hjblt
          have hkgt : (l.getD k default).size < b.size := by
            have := hj0sz
            omega
          apply List.any_eq_true.mpr
          refine ⟨jb, by rw [List.mem_range, hlen]; exact hjblt, ?_⟩
          have hkne : (k != jb) = true := by
            apply bne_iff_ne.mpr
            intro hke
            rw [← hke] at hlb
            rw [hlb] at hkgt
            omega
          rw [hkne, hsjb, hlb, hsk]
          have hsub2 : (l.getD k default).covered_minterms &&& b.covered_minterms
              = (l.getD k default).covered_minterms :=
            land_sub_trans hj0sub hbsub
          have h1 : (b.size != 0) = true := by
            have := hpos b hbmem
            simp
            omega
          rw [h1]
          simp only [Bool.true_and, Bool.and_true]
          rw [Bool.and_eq_true_iff]
          exact ⟨beq_iff_eq.mpr hsub2, decide_eq_true hkgt⟩
      unfold sweepStep
      have hne0 : ¬ ((s.getD k default).size = 0) := by
        rw [hsk]
        omega
      rw [if_neg hne0]
      by_cases hhas : hasCoveringLarger s k = true
      · rw [if_pos hhas]
        have horig := hiff.mp hhas
        refine ⟨by simp [hlen], ?_, ?_⟩
        · intro i hik hil
          have hne : k ≠ i := by omega
          rw [List.getD_eq_getElem _ default (by rw [List.length_set, hlen]; exact hil)]
          rw [List.getElem_set_ne hne]
          rw [← List.getD_eq_getElem s default (by rw [hlen]; exact hil)]
          exact hup i (by omega) hil
        · intro i hik1
          rcases Nat.lt_or_ge i k with hik | hik
          · have hne : k ≠ i := by omega
            have hil : i < l.length := by omega
            rcases hdone i hik with ⟨he, hor⟩ | ⟨he, hor⟩
            · left
              refine ⟨?_, hor⟩
              rw [List.getD_eq_getElem _ default (by rw [List.length_set, hlen]; exact hil)]
              rw [List.getElem_set_ne hne]
              rw [← List.getD_eq_getElem s default (by rw [hlen]; exact hil)]
              exact he
            · right
              refine ⟨?_, hor⟩
              rw [List.getD_eq_getElem _ default (by rw [List.length_set, hlen]; exact hil)]
              rw [List.getElem_set_ne hne]
              rw [← List.getD_eq_getElem s default (by rw [hlen]; exact hil)]
              exact he
          · have hie : i = k := by omega
            right
            rw [hie]
            refine ⟨?_, horig⟩
            rw [List.getD_eq_getElem _ default (by rw [List.length_set, hlen]; exact hk)]
            rw [List.getElem_set_self]
            rw [hsk]
      · rw [if_neg hhas]
        have hnored : ¬ origRedundant l k := fun ho => hhas (hiff.mpr ho)
        refine ⟨hlen, ?_, ?_⟩
        · intro i hik hil
          exact hup i (by omega) hil
        · intro i hik1
          rcases Nat.lt_or_ge i k with hik | hik
          · exact hdone i hik
          · have hie : i = k := by omega
            left
            rw [hie]
            exact ⟨hsk, hnored⟩
  have h := key _ rfl
  exact ⟨h.1, h.2.2⟩

theorem filter_congr_entries {α : Type} [Inhabited α] (p q : α → Bool) :
    ∀ (l1 l2 : List α), l1.length = l2.length →
    (∀ i, i < l1.length →
      (p (l1.getD i default) = true →
        q (l2.getD i default) = true ∧ l1.getD i default = l2.getD i default) ∧
      (p (l1.getD i default) = false → q (l2.getD i default) = false)) →
    l1.filter p = l2.filter q := by
  intro l1
  induction l1 with
  | nil =>
    intro l2 hlen _
    cases l2 with
    | nil => rfl
    | cons b l2' => simp at hlen
  | cons a l1' ih =>
    intro l2 hlen hpt
    cases l2 with
    | nil => simp at hlen
    | cons b l2' =>
      have h0 := hpt 0 (by simp)
      simp only [List.getD_cons_zero] at h0
      have hrest : l1'.filter p = l2'.filter q := by
        apply ih l2' (by simpa using hlen)
        intro i hi
        have h2 := hpt (i + 1) (by simpa using Nat.succ_lt_succ hi)
        simp only [List.getD_cons_succ] at h2
        exact h2
      cases hpa : p a
      · have hqb := (h0.2) hpa
        rw [List.filter_cons, List.filter_cons]
        rw [if_neg (by simp [hpa]), if_neg (by simp [hqb])]
        exact hrest
      · obtain ⟨hqb, hab⟩ := (h0.1) hpa
        rw [List.filter_cons, List.filter_cons]
        rw [if_pos (by simp [hpa]), if_pos (by simp [hqb])]
        rw [hab, hrest]

/-- With positive sizes, the sweep followed by compaction equals a
one-shot filter of the original list against the original data. -/
theorem remove_redundant_eq_filter {l : List implicant_t}
    (hpos : ∀ g ∈ l, 0 < g.size) :
    remove_redundant_implicants l = l.filter (fun a => ! subsumedByLarger l a) := by
  obtain ⟨hlen, hchar⟩ := sweep_char hpos
  unfold remove_redundant_implicants
  apply filter_congr_entries _ _ _ _ hlen
  intro i hi'
  have hi : i < l.length := by rw [← hlen]; exact hi'
  have hposi : 0 < (l.getD i default).size := by
    apply hpos
    rw [List.getD_eq_getElem l default hi]
    exact List.getElem_mem hi
  rcases hchar i hi with ⟨he, hor⟩ | ⟨he, hor⟩
  · have hsubf : subsumedByLarger l (l.getD i default) = false := by
      cases hsub : subsumedByLarger l (l.getD i default)
      · rfl
      · exact absurd ((origRedundant_iff hi).mpr hsub) hor
    constructor
    · intro _
      refine ⟨by rw [hsubf]; rfl, he⟩
    · intro hfalse
      exfalso
      rw [he] at hfalse
      rw [bne_eq_false_iff_eq] at hfalse
      omega
  · have hsubt : subsumedByLarger l (l.getD i default) = true :=
      (origRedundant_iff hi).mp hor
    constructor
    · intro htrue
      exfalso
      rw [he] at htrue
      simp at htrue
    · intro _
      rw [hsubt]
      rfl

/-- Compaction preserves the union of covered minterms: every removed
implicant was covered by a surviving, strictly larger one. -/
theorem remove_redundant_union {l : List implicant_t}
    (hpos : ∀ g ∈ l, 0 < g.size) :
    unionCovered (remove_redundant_implicants l) = unionCovered l := by
  rw [remove_redundant_eq_filter hpos]
  apply Nat.eq_of_testBit_eq
  intro x
  rw [unionCovered_testBit, unionCovered_testBit]
  cases hany : l.any (fun g => g.covered_minterms.testBit x)
  · apply List.any_eq_false.mpr
    intro g hg
    have := List.any_eq_false.mp hany
    exact this g (List.mem_filter.mp hg).1
  · obtain ⟨g, hgmem, hgbit⟩ := List.any_eq_true.mp hany
    apply List.any_eq_true.mpr
    obtain ⟨b, hbmem, hbsub, _, hbuns⟩ := exists_max_cover l g hgmem
    refine ⟨b, ?_, ?_⟩
    · apply List.mem_filter.mpr
      refine ⟨hbmem, ?_⟩
      rw [hbuns]
      rfl
    · exact land_eq_bitSub hbsub x hgbit

theorem section3_facts {tt : truth_table_t} (h : section3_invariants tt = true) :
    2 ≤ tt.num_vars ∧ tt.num_vars ≤ 6 ∧ tt.minterms &&& tt.dont_cares = 0 ∧
    tt.minterms ||| tt.dont_cares < 2 ^ (2 ^ tt.num_vars) ∧
    tt.minterm_count = popcount tt.minterms := by
  unfold section3_invariants at h
  simp only [Bool.and_eq_true, decide_eq_true_eq, beq_iff_eq] at h
  exact ⟨h.1.1.1.1, h.1.1.1.2, h.1.1.2, h.1.2, h.2⟩

theorem engine_sizes_pos {minterms dont_cares num_vars : Nat}
    (hwf : ∀ g ∈ find_groups_with_dont_cares minterms dont_cares num_vars,
      WFimp num_vars minterms g) :
    ∀ g ∈ find_groups_with_dont_cares minterms dont_cares num_vars, 0 < g.size := by
  intro g hg
  obtain ⟨_, _, hsize, hne, _⟩ := hwf g hg
  rw [hsize]
  exact popcount_pos _ hne

/-- C1: for every TruthTable satisfying the §3 invariants on which the
grouping engine is invoked (minterms nonempty, not the full domain), the
union of the returned implicants' `coveredMinterms` equals
`TruthTable.minterms` exactly — never a superset, never a subset — both
immediately after the grouping passes and after the Redundancy Reducer
has run. -/
theorem C1_full_coverage_before_and_after_reducer (tt : truth_table_t)
    (hinv : section3_invariants tt = true)
    (hne : tt.minterms ≠ 0)
    (hnf : tt.minterms ≠ 2 ^ (2 ^ tt.num_vars) - 1) :
    unionCovered (find_groups_with_dont_cares tt.minterms tt.dont_cares tt.num_vars)
      = tt.minterms ∧
    unionCovered (remove_redundant_implicants
        (find_groups_with_dont_cares tt.minterms tt.dont_cares tt.num_vars))
      = tt.minterms := by
  obtain ⟨hn2, hn6, _, husable, _⟩ := section3_facts hinv
  obtain ⟨hunion, _, hwf, _⟩ := @engine_master tt.minterms tt.dont_cares tt.num_vars hn2 hn6 husable
  refine ⟨hunion, ?_⟩
  rw [remove_redundant_union (engine_sizes_pos hwf)]
  exact hunion

/-- Witness for C1 at the don't-care example `minterms = {1,2,5}`,
`dontCares = {0,4,6}`, `numVars = 3`. -/
theorem C1_full_coverage_before_and_after_reducer_witness :
    section3_invariants ⟨0b0100110, 0b1010001, 3, 3⟩ = true ∧
    (0b0100110 : Nat) ≠ 0 ∧ (0b0100110 : Nat) ≠ 2 ^ (2 ^ 3) - 1 ∧
    (unionCovered (find_groups_with_dont_cares 0b0100110 0b1010001 3) = 0b0100110 ∧
     unionCovered (remove_redundant_implicants
        (find_groups_with_dont_cares 0b0100110 0b1010001 3)) = 0b0100110) :=
  ⟨by decide, by decide, by decide,
    C1_full_coverage_before_and_after_reducer ⟨0b0100110, 0b1010001, 3, 3⟩
      (by decide) (by decide) (by decide)⟩

/-- C6: for every §3-valid TruthTable the engine never needs more than
`MAX_GROUPS = 32` implicants, so the capacity ceiling never silently
truncates the implicant list: no required minterm is dropped. -/
theorem C6_capacity_no_silent_truncation (tt : truth_table_t)
    (hinv : section3_invariants tt = true) :
    (find_groups_with_dont_cares tt.minterms tt.dont_cares tt.num_vars).length
      ≤ MAX_GROUPS ∧
    unionCovered (find_groups_with_dont_cares tt.minterms tt.dont_cares tt.num_vars)
      = tt.minterms := by
  obtain ⟨hn2, hn6, _, husable, _⟩ := section3_facts hinv
  obtain ⟨hunion, hlen, _, _⟩ := @engine_master tt.minterms tt.dont_cares tt.num_vars hn2 hn6 husable
  exact ⟨hlen, hunion⟩

/-- Witness for C6 at `minterms = {1,2,5}`, `dontCares = {0,4,6}`,
`numVars = 3`. -/
theorem C6_capacity_no_silent_truncation_witness :
    section3_invariants ⟨0b0100110, 0b1010001, 3, 3⟩ = true ∧
    ((find_groups_with_dont_cares 0b0100110 0b1010001 3).length ≤ MAX_GROUPS ∧
     unionCovered (find_groups_with_dont_cares 0b0100110 0b1010001 3) = 0b0100110) :=
  ⟨by decide, C6_capacity_no_silent_truncation ⟨0b0100110, 0b1010001, 3, 3⟩ (by decide)⟩

/-- C3: on every §3-valid TruthTable the 4-cell (quad) pass emits
nothing — the state after the quad pass is the pair-pass state — and
consequently every emitted implicant keeps at least `numVars - 1` bits
set in its `literalMask` (pairs drop exactly one variable, singletons
none). -/
theorem C3_quad_pass_never_emits (tt : truth_table_t)
    (hinv : section3_invariants tt = true) :
    pass2 tt.minterms tt.num_vars
        (pass1 tt.minterms tt.num_vars
          ⟨tt.minterms, tt.minterms ||| tt.dont_cares, []⟩)
      = pass1 tt.minterms tt.num_vars
          ⟨tt.minterms, tt.minterms ||| tt.dont_cares, []⟩ ∧
    ∀ g ∈ find_groups_with_dont_cares tt.minterms tt.dont_cares tt.num_vars,
      tt.num_vars - 1 ≤ popcount g.literal_mask := by
  obtain ⟨hn2, hn6, _, husable, _⟩ := section3_facts hinv
  obtain ⟨_, _, hwf, hp2⟩ := @engine_master tt.minterms tt.dont_cares tt.num_vars hn2 hn6 husable
  refine ⟨hp2, ?_⟩
  intro g hg
  exact (hwf g hg).2.1

/-- Witness for C3 at `minterms = {1,2,5}`, `dontCares = {0,4,6}`,
`numVars = 3`. -/
theorem C3_quad_pass_never_emits_witness :
    section3_invariants ⟨0b0100110, 0b1010001, 3, 3⟩ = true ∧
    (pass2 0b0100110 3 (pass1 0b0100110 3 ⟨0b0100110, 0b0100110 ||| 0b1010001, []⟩)
        = pass1 0b0100110 3 ⟨0b0100110, 0b0100110 ||| 0b1010001, []⟩ ∧
     ∀ g ∈ find_groups_with_dont_cares 0b0100110 0b1010001 3,
       3 - 1 ≤ popcount g.literal_mask) :=
  ⟨by decide, C3_quad_pass_never_emits ⟨0b0100110, 0b1010001, 3, 3⟩ (by decide)⟩

/-- C4: in the Redundancy Reducer's single sweep over a solution whose
implicants all have positive size, implicant `i` is marked removed
(`size := 0`) exactly when some other implicant `j` of the original list
has `i.coveredMinterms ⊆ j.coveredMinterms` and `j.size > i.size` — all
judged against the original sizes, so a removal can neither trigger nor
suppress another removal in the same pass — and the surviving implicants
are compacted preserving their relative order (a stable filter of the
original list). -/
theorem C4_reducer_single_sweep_original_sizes (l : List implicant_t)
    (hpos : ∀ g ∈ l, 0 < g.size) :
    (∀ i, i < l.length →
      (((sweep l).getD i default).size = 0 ↔ origRedundant l i)) ∧
    remove_redundant_implicants l = l.filter (fun a => ! subsumedByLarger l a) := by
  obtain ⟨hlen, hchar⟩ := sweep_char hpos
  refine ⟨?_, remove_redundant_eq_filter hpos⟩
  intro i hi
  have hposi : 0 < (l.getD i default).size := by
    apply hpos
    rw [List.getD_eq_getElem l default hi]
    exact List.getElem_mem hi
  rcases hchar i hi with ⟨he, hor⟩ | ⟨he, hor⟩
  · rw [he]
    constructor
    · intro h0
      omega
    · intro h
      exact absurd h hor
  · rw [he]
    exact ⟨fun _ => hor, fun _ => rfl⟩

/-- Witness for C4: the first implicant (covering cell 0, size 1) is
subsumed by the second (covering cells 0 and 1, size 2). -/
theorem C4_reducer_single_sweep_original_sizes_witness :
    (∀ g ∈ [(⟨1, 3, 0, 1⟩ : implicant_t), ⟨3, 2, 0, 2⟩], 0 < g.size) ∧
    ((∀ i, i < ([(⟨1, 3, 0, 1⟩ : implicant_t), ⟨3, 2, 0, 2⟩] : List implicant_t).length →
      (((sweep [(⟨1, 3, 0, 1⟩ : implicant_t), ⟨3, 2, 0, 2⟩]).getD i default).size = 0 ↔
        origRedundant [(⟨1, 3, 0, 1⟩ : implicant_t), ⟨3, 2, 0, 2⟩] i)) ∧
    remove_redundant_implicants [(⟨1, 3, 0, 1⟩ : implicant_t), ⟨3, 2, 0, 2⟩]
      = ([(⟨1, 3, 0, 1⟩ : implicant_t), ⟨3, 2, 0, 2⟩].filter
          (fun a => ! subsumedByLarger [(⟨1, 3, 0, 1⟩ : implicant_t), ⟨3, 2, 0, 2⟩] a))) :=
  ⟨by decide,
    C4_reducer_single_sweep_original_sizes
      [(⟨1, 3, 0, 1⟩ : implicant_t), ⟨3, 2, 0, 2⟩] (by decide)⟩

/-- C7: counter-evidence.  The table `minterms = {0}`, `dontCares = ∅`,
`numVars = 6`, `mintermCount = 1` satisfies every §3 invariant, yet
`find_prime_implicants` rejects it with the InvalidInput error code -2:
the range check builds the domain mask by shifting 1 left by `2^6 = 64`
on a 64-bit word, which masks the shift count to 0 and makes the mask
empty, so every nonempty 6-variable table is rejected. -/
theorem C7_section3_valid_six_var_table_rejected :
    section3_invariants ⟨1, 0, 6, 1⟩ = true ∧
    find_prime_implicants ⟨1, 0, 6, 1⟩ = Except.error (-2) :=
  ⟨by decide, rfl⟩

/-- C10: counter-evidence.  The empty-minterm case does hold away from
the 6-variable boundary (Scenario D: `numVars = 2`, `minterms = ∅`,
`dontCares` the full domain, yields zero implicants rendered as "0"),
but the §3-valid table `minterms = ∅`, `dontCares = {0}`, `numVars = 6`
is rejected with error -2 by the same broken 64-bit shift in
`validate_truth_table`, so no zero-implicant Solution is produced for
it. -/
theorem C10_empty_minterms_six_vars_rejected :
    find_prime_implicants ⟨0, 0b1111, 2, 0⟩ = Except.ok ⟨[], 0, 0⟩ ∧
    generate_sop_expression ⟨[], 0, 0⟩ 2 64 = (0, "0") ∧
    section3_invariants ⟨0, 1, 6, 0⟩ = true ∧
    find_prime_implicants ⟨0, 1, 6, 0⟩ = Except.error (-2) :=
  ⟨rfl, by decide, by decide, rfl⟩

set_option maxRecDepth 100000 in
/-- C9: counterexample to the claim as stated.  On `numVars = 4`,
`minterms = {0, 2}`, `dontCares = {1, 3}` the engine emits two pair
implicants (each with three literals), not one single-literal term: the
Solution has `termCount = 2` and renders as two product terms. -/
theorem C9_stated_input_gives_two_terms :
    find_prime_implicants ⟨0b0101, 0b1010, 4, 2⟩
      = Except.ok ⟨[⟨1, 14, 0, 1⟩, ⟨4, 14, 2, 1⟩], 6, 2⟩ ∧
    generate_sop_expression ⟨[⟨1, 14, 0, 1⟩, ⟨4, 14, 2, 1⟩], 6, 2⟩ 4 512
      = (0, "~B&~C&~D + B&~C&~D") ∧
    (⟨[⟨1, 14, 0, 1⟩, ⟨4, 14, 2, 1⟩], 6, 2⟩ : solution_t).implicants.length = 2 :=
  ⟨rfl, by decide, rfl⟩

set_option maxRecDepth 100000 in
/-- C9 (amended): reading the spec's "1X1X" pattern as the truth table
itself — `numVars = 2`, `minterms = {1, 3}`, `dontCares = {0, 2}` — the
don't-care exploitation does collapse the cover to a single-literal
term: exactly one implicant, whose `literalMask` keeps exactly one
variable, rendered as the single literal "A". -/
theorem C9_amended_single_literal_term :
    find_prime_implicants ⟨0b1010, 0b0101, 2, 2⟩
      = Except.ok ⟨[⟨10, 1, 1, 2⟩], 1, 1⟩ ∧
    (⟨[⟨10, 1, 1, 2⟩], 1, 1⟩ : solution_t).implicants.length = 1 ∧
    (∀ g ∈ (⟨[⟨10, 1, 1, 2⟩], 1, 1⟩ : solution_t).implicants,
      popcount g.literal_mask = 1) ∧
    generate_sop_expression ⟨[⟨10, 1, 1, 2⟩], 1, 1⟩ 2 512 = (0, "A") :=
  ⟨rfl, rfl, by decide, by decide⟩

theorem appendTok_len (output_len : Nat) (out tok : String) (need : Nat)
    (h : out.length + 1 ≤ output_len) (htok : tok.length ≤ need) :
    (appendTok output_len out tok need).2.length + 1 ≤ output_len := by
  unfold appendTok
  split
  · exact h
  · rename_i hg
    push_neg at hg
    simp only [String.length_append]
    omega

theorem renderVars_len (imp : implicant_t) (output_len : Nat) :
    ∀ vars out first, out.length + 1 ≤ output_len →
      (renderVars imp output_len vars out first).2.1.length + 1 ≤ output_len := by
  intro vars
  induction vars with
  | nil =>
    intro out first h
    simpa only [renderVars] using h
  | cons var rest ih =>
    intro out first h
    simp only [renderVars]
    by_cases hm : imp.literal_mask.testBit var = true
    · rw [if_pos hm]
      rcases hE1 : (if ¬ first = true then appendTok output_len out "&" 1
          else ((0 : Int), out)) with ⟨c1, b1⟩
      have hb1 : b1.length + 1 ≤ output_len := by
        by_cases hf : ¬ first = true
        · rw [if_pos hf] at hE1
          have hl := appendTok_len output_len out "&" 1 h (by decide)
          rw [hE1] at hl
          exact hl
        · rw [if_neg hf] at hE1
          have hb : out = b1 := congrArg Prod.snd hE1
          rw [← hb]
          exact h
      dsimp only
      by_cases hc1 : (c1 ≠ 0)
      · rw [if_pos hc1]
        exact hb1
      · rw [if_neg hc1]
        rcases hE2 : (if ¬ imp.literal_values.testBit var = true then
            appendTok output_len b1 "~" 2 else ((0 : Int), b1)) with ⟨c2, b2⟩
        have hb2 : b2.length + 1 ≤ output_len := by
          by_cases hv : ¬ imp.literal_values.testBit var = true
          · rw [if_pos hv] at hE2
            have hl := appendTok_len output_len b1 "~" 2 hb1 (by decide)
            rw [hE2] at hl
            exact hl
          · rw [if_neg hv] at hE2
            have hb : b1 = b2 := congrArg Prod.snd hE2
            rw [← hb]
            exact hb1
        dsimp only
        by_cases hc2 : (c2 ≠ 0)
        · rw [if_pos hc2]
          exact hb2
        · rw [if_neg hc2]
          rcases hE3 : appendTok output_len b2 (String.mk [var_names.getD var 'A']) 2
            with ⟨c3, b3⟩
          have hb3 : b3.length + 1 ≤ output_len := by
            have hl := appendTok_len output_len b2 (String.mk [var_names.getD var 'A']) 2
              hb2 (by simp)
            rw [hE3] at hl
            exact hl
          dsimp only
          by_cases hc3 : (c3 ≠ 0)
          · rw [if_pos hc3]
            exact hb3
          · rw [if_neg hc3]
            exact ih b3 false hb3
    · rw [if_neg hm]
      exact ih out first h

theorem renderTerms_len (num_vars output_len : Nat) :
    ∀ terms isFirst out, out.length + 1 ≤ output_len →
      (renderTerms num_vars output_len terms isFirst out).2.length + 1 ≤ output_len := by
  intro terms
  induction terms with
  | nil =>
    intro isFirst out h
    simpa only [renderTerms] using h
  | cons imp rest ih =>
    intro isFirst out h
    simp only [renderTerms]
    rcases hE1 : (if ¬ isFirst = true then appendTok output_len out " + " 3
        else ((0 : Int), out)) with ⟨c1, b1⟩
    have hb1 : b1.length + 1 ≤ output_len := by
      by_cases hf : ¬ isFirst = true
      · rw [if_pos hf] at hE1
        have hl := appendTok_len output_len out " + " 3 h (by decide)
        rw [hE1] at hl
        exact hl
      · rw [if_neg hf] at hE1
        have hb : out = b1 := congrArg Prod.snd hE1
        rw [← hb]
        exact h
    dsimp only
    by_cases hc1 : (c1 ≠ 0)
    · rw [if_pos hc1]
      exact hb1
    · rw [if_neg hc1]
      rcases hEr : renderVars imp output_len (List.range num_vars) b1 true
        with ⟨cr, br, fr⟩
      have hbr : br.length + 1 ≤ output_len := by
        have hl := renderVars_len imp output_len (List.range num_vars) b1 true hb1
        rw [hEr] at hl
        exact hl
      dsimp only
      by_cases hcr : (cr ≠ 0)
      · rw [if_pos hcr]
        exact hbr
      · rw [if_neg hcr]
        rcases hE3 : (if fr = true then appendTok output_len br "1" 2
            else ((0 : Int), br)) with ⟨c3, b3⟩
        have hb3 : b3.length + 1 ≤ output_len := by
          by_cases hf3 : fr = true
          · rw [if_pos hf3] at hE3
            have hl := appendTok_len output_len br "1" 2 hbr (by decide)
            rw [hE3] at hl
            exact hl
          · rw [if_neg hf3] at hE3
            have hb : br = b3 := congrArg Prod.snd hE3
            rw [← hb]
            exact hbr
        dsimp only
        by_cases hc3 : (c3 ≠ 0)
        · rw [if_pos hc3]
          exact hb3
        · rw [if_neg hc3]
          exact ih false b3 hb3

theorem generate_sop_len (solution : solution_t) (num_vars output_len : Nat)
    (hL : 1 ≤ output_len) :
    (generate_sop_expression solution num_vars output_len).2.length + 1 ≤ output_len := by
  unfold generate_sop_expression
  have hzero : output_len ≠ 0 := by omega
  rw [if_neg hzero]
  by_cases h8 : num_vars > 8
  · rw [if_pos h8]
    simpa using hL
  · rw [if_neg h8]
    have hcpy : ∀ c : Char, (strncpyOne c output_len).length + 1 ≤ output_len := by
      intro c
      unfold strncpyOne
      split
      · rename_i h2
        simpa using h2
      · simpa using hL
    by_cases hempty : solution.implicants.length = 0
    · rw [if_pos hempty]
      exact hcpy '0'
    · rw [if_neg hempty]
      rcases hEr : renderTerms num_vars output_len solution.implicants true ""
        with ⟨cr, br⟩
      have hbr : br.length + 1 ≤ output_len := by
        have hl := renderTerms_len num_vars output_len solution.implicants true ""
          (by simpa using hL)
        rw [hEr] at hl
        exact hl
      dsimp only
      by_cases hcr : (cr ≠ 0)
      · rw [if_pos hcr]
        exact hbr
      · rw [if_neg hcr]
        by_cases hbe : br.length = 0
        · rw [if_pos hbe]
          exact hcpy '1'
        · rw [if_neg hbe]
          exact hbr

/-- C5: counterexample to the claim as stated.  Rendering the solution
with the single implicant `literalMask = {A}`, `literalValues = 0` for
`numVars = 2` into a 3-byte buffer fails with BufferTooSmall (-3) but
leaves the partially written expression "~" in the output buffer, so the
function does not fail "without partial output". -/
theorem C5_partial_output_left_in_buffer :
    generate_sop_expression ⟨[⟨1, 1, 0, 1⟩], 0, 0⟩ 2 3 = (-3, "~") ∧
    ("~" : String) ≠ "" :=
  ⟨by decide, by decide⟩

/-- C5 (amended): when `generate_sop_expression` cannot fit the next
token it returns BufferTooSmall before appending that token, so the
partial expression left in the buffer always fits the buffer together
with its NUL terminator: its length is at most `output_len - 1`. -/
theorem C5_amended_error_before_unfit_token (solution : solution_t)
    (num_vars output_len : Nat)
    (h : (generate_sop_expression solution num_vars output_len).1 = -3) :
    (generate_sop_expression solution num_vars output_len).2.length + 1 ≤ output_len := by
  rcases Nat.eq_zero_or_pos output_len with hz | hL
  · exfalso
    rw [hz] at h
    unfold generate_sop_expression at h
    rw [if_pos rfl] at h
    exact absurd h (by decide)
  · exact generate_sop_len solution num_vars output_len hL

/-- Witness for the amended C5 at the 3-byte-buffer failure. -/
theorem C5_amended_error_before_unfit_token_witness :
    (generate_sop_expression ⟨[⟨1, 1, 0, 1⟩], 0, 0⟩ 2 3).1 = -3 ∧
    (generate_sop_expression ⟨[⟨1, 1, 0, 1⟩], 0, 0⟩ 2 3).2.length + 1 ≤ 3 :=
  ⟨by decide, C5_amended_error_before_unfit_token ⟨[⟨1, 1, 0, 1⟩], 0, 0⟩ 2 3 (by decide)⟩

/-- C2: on every §3-valid TruthTable on which `find_prime_implicants`
succeeds, each returned implicant is a faithful product term over the
cells it covers: every minterm whose bit is set in `coveredMinterms`
agrees with `literalValues` on every variable kept by `literalMask`. -/
theorem C2_implicants_faithful_product_terms (tt : truth_table_t) (sol : solution_t)
    (hinv : section3_invariants tt = true)
    (hok : find_prime_implicants tt = Except.ok sol) :
    ∀ g ∈ sol.implicants, ∀ m, g.covered_minterms.testBit m = true →
      m &&& g.literal_mask = g.literal_values := by
  obtain ⟨hn2, hn6, hdisj, husable, hcount⟩ := section3_facts hinv
  have hmb : tt.minterms < 2 ^ (2 ^ tt.num_vars) := by
    apply Nat.lt_of_le_of_lt _ husable
    apply Nat.le_of_testBit
    intro i hi
    rw [Nat.testBit_lor, hi]
    rfl
  unfold find_prime_implicants at hok
  split at hok
  · exact absurd hok (by simp)
  · split at hok
    · injection hok with hsol
      rw [← hsol]
      intro g hg
      simp at hg
    · split at hok
      · rename_i h0 h1
        dsimp only at hok
        injection hok with hsol
        rw [← hsol]
        intro g hg m hm
        rw [List.mem_singleton] at hg
        subst hg
        have hmne : tt.minterms ≠ 0 := by
          intro hz
          rw [hz, popcount_zero] at hcount
          omega
        have htb : tt.minterms.testBit (ctz tt.minterms) = true := ctz_testBit _ hmne
        have hposlt : ctz tt.minterms < 2 ^ tt.num_vars :=
          testBit_lt_of_lt_two_pow hmb htb
        have hmeq : ctz tt.minterms = m := by
          have := hm
          rw [testBit_one_shiftLeft] at this
          simpa using this
        rw [← hmeq]
        exact land_two_pow_sub_one_self hposlt
      · dsimp only at hok
        injection hok with hsol
        rw [← hsol]
        intro g hg m hm
        obtain ⟨_, _, hwf, _⟩ :=
          @engine_master tt.minterms tt.dont_cares tt.num_vars hn2 hn6 husable
        have hpos := engine_sizes_pos hwf
        dsimp only at hg
        rw [remove_redundant_eq_filter hpos] at hg
        have hg' := (List.mem_filter.mp hg).1
        exact (hwf g hg').1 m hm

set_option maxRecDepth 100000 in
/-- Witness for C2 at the two-minterm table `minterms = {1, 3}`,
`dontCares = {0, 2}`, `numVars = 2`. -/
theorem C2_implicants_faithful_product_terms_witness :
    section3_invariants ⟨0b1010, 0b0101, 2, 2⟩ = true ∧
    find_prime_implicants ⟨0b1010, 0b0101, 2, 2⟩ = Except.ok ⟨[⟨10, 1, 1, 2⟩], 1, 1⟩ ∧
    ∀ g ∈ (⟨[⟨10, 1, 1, 2⟩], 1, 1⟩ : solution_t).implicants, ∀ m,
      g.covered_minterms.testBit m = true → m &&& g.literal_mask = g.literal_values :=
  ⟨by decide, rfl,
    C2_implicants_faithful_product_terms ⟨0b1010, 0b0101, 2, 2⟩
      ⟨[⟨10, 1, 1, 2⟩], 1, 1⟩ (by decide) rfl⟩

theorem pass1Step_eq_spec {minterms num_vars : Nat} (hn1 : 1 ≤ num_vars)
    (k : Nat) (s : GroupState) (hk : k < 2 ^ num_vars)
    (hinv : Inv1 minterms num_vars k s) :
    pass1Step minterms num_vars s k = specPairStep minterms num_vars s k := by
  obtain ⟨ha, hb, hc, hd, hphi, heu, hed, hg⟩ := hinv
  unfold pass1Step specPairStep
  by_cases hcond : (s.available.testBit k && s.remaining.testBit k) = true
  · have hrk : s.remaining.testBit k = true := (Bool.and_eq_true_iff.mp hcond).2
    have hcap : ¬ (MAX_GROUPS ≤ s.groups.length) := by
      have htot : (2:Nat) ^ num_vars = 2 * 2 ^ (num_vars - 1) := two_pow_eq_two_mul hn1
      have h1 := dominoCount_pos hrk (show k < 2 * 2 ^ (num_vars - 1) by omega)
      unfold MAX_GROUPS at *
      omega
    rw [if_neg hcap, if_pos hcond, if_pos hcond]
    have hfp : findPartner minterms num_vars s.available k
        = specFindPartner num_vars s.available k := by
      unfold findPartner specFindPartner
      congr 1
      funext c2
      have hmk : minterms.testBit k = true := ha k hrk
      have hne := pair_mask_land_ne_zero (b := c2) hmk
      simp [bne_iff_ne, hne]
    rw [hfp]
  · by_cases hcap : MAX_GROUPS ≤ s.groups.length
    · rw [if_pos hcap, if_neg hcond]
    · rw [if_neg hcap, if_neg hcond, if_neg hcond]

theorem pass1_eq_specPairPass {minterms dont_cares num_vars : Nat}
    (hn1 : 1 ≤ num_vars) (hnv : num_vars ≤ 6)
    (husable : minterms ||| dont_cares < 2 ^ (2 ^ num_vars)) :
    pass1 minterms num_vars ⟨minterms, minterms ||| dont_cares, []⟩
      = specPairPass minterms num_vars ⟨minterms, minterms ||| dont_cares, []⟩ := by
  unfold pass1 specPairPass
  rw [Nat.one_shiftLeft]
  have key := foldl_range_inv (pass1Step minterms num_vars)
    (fun k s => Inv1 minterms num_vars k s ∧
      s = (List.range k).foldl (specPairStep minterms num_vars)
        ⟨minterms, minterms ||| dont_cares, []⟩)
    (2 ^ num_vars) ⟨minterms, minterms ||| dont_cares, []⟩
    ⟨Inv1_init hnv husable, by simp⟩
    (by
      intro k s hk hp
      refine ⟨pass1Step_inv hn1 hnv k s hk hp.1, ?_⟩
      rw [List.range_succ, List.foldl_append]
      simp only [List.foldl_cons, List.foldl_nil]
      rw [← hp.2]
      exact pass1Step_eq_spec hn1 k s hk hp.1)
  exact key.2

/-- C8: on every §3-valid TruthTable, the engine's pair pass computes
exactly what the specification describes: each cell that is usable and a
still-uncovered required minterm is paired with the first higher-indexed
adjacent cell of the usable pool, emitting a 2-cell implicant with
`coveredMinterms = (cellA ∪ cellB) ∩ minterms`, `literalMask` = all
variable bits except the single differing bit, and `literalValues` = the
fixed bits from `cellA` — the code's extra capacity guard and its
covers-a-minterm filter on candidate partners never change the result. -/
theorem C8_pair_pass_matches_spec (tt : truth_table_t)
    (hinv : section3_invariants tt = true) :
    pass1 tt.minterms tt.num_vars ⟨tt.minterms, tt.minterms ||| tt.dont_cares, []⟩
      = specPairPass tt.minterms tt.num_vars
          ⟨tt.minterms, tt.minterms ||| tt.dont_cares, []⟩ := by
  obtain ⟨hn2, hn6, _, husable, _⟩ := section3_facts hinv
  exact @pass1_eq_specPairPass tt.minterms tt.dont_cares tt.num_vars
    (by omega) hn6 husable

set_option maxRecDepth 100000 in
/-- Witness for C8 at `minterms = {1, 3}`, `dontCares = {0, 2}`,
`numVars = 2`. -/
theorem C8_pair_pass_matches_spec_witness :
    section3_invariants ⟨0b1010, 0b0101, 2, 2⟩ = true ∧
    pass1 0b1010 2 ⟨0b1010, 0b1010 ||| 0b0101, []⟩
      = specPairPass 0b1010 2 ⟨0b1010, 0b1010 ||| 0b0101, []⟩ :=
  ⟨by decide, C8_pair_pass_matches_spec ⟨0b1010, 0b0101, 2, 2⟩ (by decide)⟩

end Kmap
